import Mathlib

/-!
Verification development for the PyGaSe UDP protocol core.

Shallow embedding of the relevant parts of `pygase/utils.py`,
`pygase/connection.py` and `pygase/gamestate.py` (sequence-number
arithmetic, connection receive bookkeeping, package framing and the
game-state update algebra), together with theorems settling the claims
of the specification against that embedding.

Conventions used throughout:
* Python `int` values are modelled as `Nat`/`Int`; machine-width wrap
  is explicit in the definitions (the `Sqn` class wraps at 65535).
* Python dictionaries are modelled as association lists with unique
  keys; `del d[k]` is key-removal, `d[k] = v` replaces the first
  occurrence in place or appends at the end, exactly as a Python dict
  (which preserves insertion order) behaves on unique keys.
* fallible code returns `Except`; an exception raised part-way through
  a mutating method carries the state as it was at the raise point, so
  "the state is unchanged on error" is an actual theorem, not a
  modelling artefact.
-/

namespace Pygase

deriving instance DecidableEq for Except

/-! ## Sqn arithmetic (`pygase/utils.py`, class `Sqn`)

`Sqn._bytesize = 2`, hence `_max_sequence = 65535`.  The threshold used
by `Sqn.__sub__` is `(65535 - 1) / 2 = 32767.0`; comparing integers
against the float `32767.0` agrees with comparing against the integer
`32767`, which is how the threshold is written here. -/

def maxSequence : Nat := 65535

/-- Embedding of `Sqn.__add__`: plain integer addition followed by the
wrap `result -= 65535` when the sum exceeds the maximum (this skips 0,
mapping 65535 + 1 to 1). -/
def sqnAdd (a b : Nat) : Nat :=
  let r := a + b
  if r > maxSequence then r - maxSequence else r

/-- Embedding of `Sqn.__sub__`: the signed difference, wrapped into the
window (-32767 .. 32767) by adding or subtracting the period 65535. -/
def sqnSub (a b : Nat) : Int :=
  let r : Int := (a : Int) - (b : Int)
  if r > 32767 then r - 65535
  else if r < -32767 then r + 65535
  else r

/-- Embedding of `Sqn.__lt__`: `int(self) < int(self) + (other - self)`
where `other - self` is the wrapped signed difference. -/
def sqnLt (a b : Nat) : Bool :=
  decide ((a : Int) < (a : Int) + sqnSub b a)

/-- Embedding of `Sqn.__gt__`: `int(self) > int(self) + (other - self)`
where `other - self` is the wrapped signed difference. -/
def sqnGt (a b : Nat) : Bool :=
  decide ((a : Int) > (a : Int) + sqnSub b a)

theorem sqnLt_iff_sub_pos (a b : Nat) : sqnLt a b = true ↔ 0 < sqnSub b a := by
  simp [sqnLt]

theorem sqnGt_iff_sub_neg (a b : Nat) : sqnGt a b = true ↔ sqnSub b a < 0 := by
  simp [sqnGt]

/-- Antisymmetry of the wrapped signed difference on in-range values. -/
theorem sqnSub_antisymm (a b : Nat) (ha : a ≤ maxSequence) (hb : b ≤ maxSequence) :
    sqnSub a b = -sqnSub b a := by
  simp only [sqnSub, maxSequence] at *
  have h1 : (a : Int) ≤ 65535 := by exact_mod_cast ha
  have h2 : (b : Int) ≤ 65535 := by exact_mod_cast hb
  have h3 : (0 : Int) ≤ (a : Int) := Int.ofNat_nonneg a
  have h4 : (0 : Int) ≤ (b : Int) := Int.ofNat_nonneg b
  split_ifs <;> omega

theorem sqnGt_eq_false_of_eq (a b : Nat) (h : a = b) : sqnGt a b = false := by
  subst h
  simp [sqnGt, sqnSub]

theorem sqnGt_eq_false_of_sqnLt (a b : Nat) (h : sqnLt a b = true) : sqnGt a b = false := by
  rw [sqnLt_iff_sub_pos] at h
  simp only [sqnGt, decide_eq_false_iff_not, not_lt]
  omega

/-! ## Remote bookkeeping (`pygase/connection.py`, `Connection._update_remote_info`)

The connection state relevant to `_update_remote_info` is the pair
`(remote_sequence, ack_bitfield)`; the bitfield, a 32-character string
of `'0'`/`'1'` in the source, is a `List Bool`.  Python string
operations are modelled exactly: `"1" + s[:-1]` is
`true :: s.take (len - 1)`, `s[:d]` with negative `d` is
`s.take (len - |d|)`, `.zfill(32)` pads with `false` on the left, and
`s[i]` with `i ≥ len` raises `IndexError`. -/

inductive PyErr where
  | duplicateSequence
  | indexError
  | overflow
  deriving DecidableEq, Repr

structure ConnInfo where
  remoteSequence : Nat
  ackBitfield : List Bool
  deriving DecidableEq, Repr

/-- Python `str.zfill(32)`: pad the string with zeros on the left up to
length 32 (strings already of length 32 or more are unchanged). -/
def zfill32 (l : List Bool) : List Bool :=
  List.replicate (32 - l.length) false ++ l

/-- Embedding of `Connection._update_remote_info`.  An exception is
modelled as `.error (err, st)` where `st` is the connection state at
the moment of the raise (no field had been mutated before any of the
raise sites, so the state carried by an error is the input state). -/
def updateRemoteInfo (st : ConnInfo) (receivedSequence : Nat) : Except (PyErr × ConnInfo) ConnInfo :=
  if st.remoteSequence = 0 then
    .ok { st with remoteSequence := receivedSequence }
  else
    let sequenceDiff := sqnSub st.remoteSequence receivedSequence
    if sequenceDiff < 0 then
      let bits :=
        if sequenceDiff = -1 then
          true :: st.ackBitfield.take (st.ackBitfield.length - 1)
        else
          zfill32 (st.ackBitfield.take (st.ackBitfield.length - (-sequenceDiff).toNat))
      .ok { remoteSequence := receivedSequence, ackBitfield := bits }
    else if sequenceDiff = 0 then
      .error (.duplicateSequence, st)
    else
      -- `self.ack_bitfield[sequence_diff - 1]` raises IndexError when the
      -- index is not below the string length.
      if h : (sequenceDiff - 1).toNat < st.ackBitfield.length then
        if st.ackBitfield.get ⟨(sequenceDiff - 1).toNat, h⟩ = true then
          .error (.duplicateSequence, st)
        else
          .ok { st with ackBitfield :=
            st.ackBitfield.take ((sequenceDiff - 1).toNat) ++ [true]
              ++ st.ackBitfield.drop (sequenceDiff.toNat) }
      else
        .error (.indexError, st)

/-- Process a list of received sequence numbers in order, propagating
the first exception (as `Connection._recv` would). -/
def recvSequence (st : ConnInfo) : List Nat → Except (PyErr × ConnInfo) ConnInfo
  | [] => .ok st
  | s :: rest => do
    let st1 ← updateRemoteInfo st s
    recvSequence st1 rest

/-- Connection state of a freshly constructed `Connection`:
`remote_sequence = 0`, `ack_bitfield = "0" * 32`. -/
def freshConnInfo : ConnInfo :=
  { remoteSequence := 0, ackBitfield := List.replicate 32 false }

/-! ## Package framing (`pygase/connection.py`, classes `Header` and `Package`)

Bytes are modelled as `Nat` values below 256 in a `List Nat`.  An
`Event` is represented by its serialization `event.to_bytes()` (the
msgpack encoding produced by the external `umsgpack` library, which is
not part of this repository); the framing logic only ever treats that
encoding as an opaque byte string with a known length. -/

structure Event where
  bytes : List Nat
  deriving DecidableEq, Repr

/-- Python `n.to_bytes(len, "big")`. -/
def toBytesBE (len n : Nat) : List Nat :=
  (List.range len).map (fun i => n / 256 ^ (len - 1 - i) % 256)

/-- Python `int(bitstring, 2)` for the `'0'`/`'1'` string modelled as a
`List Bool`. -/
def bitsToNat (l : List Bool) : Nat :=
  l.foldl (fun a b => 2 * a + (if b then 1 else 0)) 0

/-- `PROTOCOL_ID = bytes.fromhex("ffd0fab9")`. -/
def protocolId : List Nat := [0xff, 0xd0, 0xfa, 0xb9]

structure Header where
  sequence : Nat
  ack : Nat
  ackBitfield : List Bool
  deriving DecidableEq, Repr

/-- Embedding of `Header.to_bytearray`: protocol id, 2-byte sequence,
2-byte ack, 4-byte ack bitfield, 12 bytes in total. -/
def Header.toBytearray (h : Header) : List Nat :=
  protocolId ++ toBytesBE 2 h.sequence ++ toBytesBE 2 h.ack
    ++ toBytesBE 4 (bitsToNat h.ackBitfield)

/-- `Package.max_size = 2048`. -/
def packageMaxSize : Nat := 2048

/-- Embedding of the `Package` instance state: header, event list and the
`_datagram` serialization cache (`None` until first serialization). -/
structure Package where
  header : Header
  events : List Event
  datagram : Option (List Nat)
  deriving DecidableEq, Repr

/-- Embedding of `Package._create_event_block`: each event's bytes
prefixed by their 2-byte big-endian length. -/
def createEventBlock : List Event → List Nat
  | [] => []
  | e :: rest => toBytesBE 2 e.bytes.length ++ e.bytes ++ createEventBlock rest

/-- Embedding of `Package.add_event`.  The size check (and possible
`OverflowError`) happens only when a serialized cache exists; a raise
leaves the package unchanged. -/
def Package.addEvent (p : Package) (event : Event) : Except (PyErr × Package) Package :=
  match p.datagram with
  | some d =>
      if d.length + event.bytes.length + 2 > packageMaxSize then
        .error (.overflow, p)
      else
        .ok { p with
                datagram := some (d ++ toBytesBE 2 event.bytes.length ++ event.bytes),
                events := p.events ++ [event] }
  | none => .ok { p with events := p.events ++ [event] }

/-- Embedding of `Package.to_datagram`: return the cache if present,
otherwise build header bytes plus event block, raise `OverflowError`
past `max_size`, and cache the result. -/
def Package.toDatagram (p : Package) : Except (PyErr × Package) (List Nat × Package) :=
  match p.datagram with
  | some d => .ok (d, p)
  | none =>
      let d := p.header.toBytearray ++ createEventBlock p.events
      if d.length > packageMaxSize then
        .error (.overflow, p)
      else
        .ok (d, { p with datagram := some d })

def isOkB : Except ε α → Bool
  | .ok _ => true
  | .error _ => false

/-! ## The send path (`Connection._send_next_package`) -/

/-- Connection state touched by `_send_next_package`: the local and
remote sequence numbers, the ack bitfield, the outgoing event queue of
`(event, callback_sequence)` pairs, the `_events_with_callbacks` map
from package sequence to callback sequences, and `_pending_acks` from
package sequence to send time. -/
structure SendState where
  localSequence : Nat
  remoteSequence : Nat
  ackBitfield : List Bool
  outgoingEventQueue : List (Event × Nat)
  eventsWithCallbacks : List (Nat × List Nat)
  pendingAcks : List (Nat × ℚ)
  deriving DecidableEq, Repr

/-- Register a callback sequence under a package sequence, as the send
loop does: create the list if the key is new, append otherwise. -/
def appendCallbackSeq (ls cs : Nat) : List (Nat × List Nat) → List (Nat × List Nat)
  | [] => [(ls, [cs])]
  | (k, v) :: rest =>
      if k = ls then (k, v ++ [cs]) :: rest else (k, v) :: appendCallbackSeq ls cs rest

/-- Embedding of the drain loop of `_send_next_package`:
`while len(package.events) < 5 and not queue.empty()` pop an event,
register its callback sequence (when nonzero) under the package being
built, and `package.add_event(event)`. -/
def drainLoop (newSeq : Nat) (p : Package) (queue : List (Event × Nat))
    (ewc : List (Nat × List Nat)) :
    Except (PyErr × Package) (Package × List (Event × Nat) × List (Nat × List Nat)) :=
  match queue with
  | [] => .ok (p, [], ewc)
  | (event, cs) :: rest =>
      if 5 ≤ p.events.length then
        .ok (p, (event, cs) :: rest, ewc)
      else
        let ewc1 := if cs ≠ 0 then appendCallbackSeq newSeq cs ewc else ewc
        match p.addEvent event with
        | .ok p1 => drainLoop newSeq p1 rest ewc1
        | .error (e, p1) => .error (e, p1)

/-- Embedding of `Connection._send_next_package`: increment
`local_sequence`, build a fresh package from the current header data,
drain up to five queued events into it, serialize and record the send
in `pending_acks`.  An uncaught exception carries the partially
mutated connection state. -/
def sendNextPackage (now : ℚ) (st : SendState) :
    Except (PyErr × SendState) (SendState × List Nat) :=
  let newSeq := sqnAdd st.localSequence 1
  let p0 : Package := ⟨⟨newSeq, st.remoteSequence, st.ackBitfield⟩, [], none⟩
  match drainLoop newSeq p0 st.outgoingEventQueue st.eventsWithCallbacks with
  | .error (e, _) =>
      -- unreachable: `add_event` never raises on a package without a
      -- serialization cache (`drainLoop_fresh_ok` below)
      .error (e, { st with localSequence := newSeq })
  | .ok (p1, remaining, ewc1) =>
      match p1.toDatagram with
      | .error (e, _) =>
          .error (e, { st with
                         localSequence := newSeq,
                         outgoingEventQueue := remaining,
                         eventsWithCallbacks := ewc1 })
      | .ok (d, _) =>
          .ok ({ st with
                   localSequence := newSeq,
                   outgoingEventQueue := remaining,
                   eventsWithCallbacks := ewc1,
                   pendingAcks := st.pendingAcks ++ [(newSeq, now)] }, d)

/-- Project the connection state out of a send result, whether the send
succeeded or raised. -/
def sendResultState : Except (PyErr × SendState) (SendState × List Nat) → SendState
  | .ok (st1, _) => st1
  | .error (_, st1) => st1

/-! ## The receive path (`Connection._recv`, ack and timeout resolution)

The portion of `_recv` that resolves pending acks iterates over a
snapshot of the keys of `_pending_acks` and, for each pending package
sequence, either treats it as acknowledged (condition `sequence_diff ==
0 or (0 < sequence_diff < 32 and ack_bitfield[sequence_diff-1] ==
"1")`), fires the ack callbacks registered against it and forgets it,
or — if it is older than `Package.timeout = 1` second — fires the
timeout callbacks and forgets it.

A callback registry entry `(es, (a, t))` records whether the
`ack_callback` and the `timeout_callback` passed to `dispatch_event`
were not `None`; the callback bodies themselves are external user code,
so an invocation is modelled as an entry `(es, kind)` appended to a
fire log.  In Python an `event_sequence` missing from
`_event_callbacks` would raise `KeyError` (firing nothing); the model
skips it instead, which only adds potential fires, so the at-most-once
theorems below are conservative with respect to the source. -/

inductive CbKind where
  | ackCb
  | timeoutCb
  deriving DecidableEq, Repr

/-- Dictionary lookup in an association list (first matching key). -/
def lookupA {α : Type} : List (Nat × α) → Nat → Option α
  | [], _ => none
  | (k, v) :: rest, key => if k = key then some v else lookupA rest key

/-- Python `del d[key]` for an association list (all occurrences; keys
of an actual `dict` are unique). -/
def removeA {α : Type} : List (Nat × α) → Nat → List (Nat × α)
  | [], _ => []
  | (k, v) :: rest, key =>
      if k = key then removeA rest key else (k, v) :: removeA rest key

structure RecvState where
  pendingAcks : List (Nat × ℚ)
  eventsWithCallbacks : List (Nat × List Nat)
  eventCallbacks : List (Nat × (Bool × Bool))
  latency : ℚ
  deriving DecidableEq, Repr

def cbPresent (kind : CbKind) (e : Bool × Bool) : Bool :=
  match kind with
  | .ackCb => e.1
  | .timeoutCb => e.2

/-- Inner loop of ack (or timeout) resolution: for each event sequence
registered against the package, invoke its callback if one was
registered and delete the registry entry. -/
def fireCallbacks (kind : CbKind) :
    List Nat → List (Nat × (Bool × Bool)) → List (Nat × CbKind) →
    List (Nat × (Bool × Bool)) × List (Nat × CbKind)
  | [], ecb, fired => (ecb, fired)
  | es :: rest, ecb, fired =>
      match lookupA ecb es with
      | some e =>
          if cbPresent kind e then
            fireCallbacks kind rest (removeA ecb es) (fired ++ [(es, kind)])
          else
            fireCallbacks kind rest ecb fired
      | none => fireCallbacks kind rest ecb fired

/-- The acknowledgement condition of `_recv` for a pending sequence
`s`: `sequence_diff == 0 or (0 < sequence_diff < 32 and
ack_bitfield[sequence_diff - 1] == "1")` with `sequence_diff = ack - s`
(wrapped signed difference).  The index stays below 31, so on the
32-bit bitfields produced by header parsing the `getD` here is exactly
Python string indexing. -/
def ackResolved (ack : Nat) (bits : List Bool) (s : Nat) : Bool :=
  let d := sqnSub ack s
  decide (d = 0) || (decide (0 < d) && decide (d < 32) && bits.getD (d - 1).toNat false)

/-- Embedding of `Package.timeout = 1.0` (seconds). -/
def packageTimeout : ℚ := 1

/-- Resolution of a single pending package sequence, mirroring the body
of the `for pending_sequence in list(self._pending_acks)` loop. -/
def resolvePendingEntry (ack : Nat) (bits : List Bool) (now : ℚ) (st : RecvState)
    (fired : List (Nat × CbKind)) (acked : List Nat) (entry : Nat × ℚ) :
    RecvState × List (Nat × CbKind) × List Nat :=
  let ps := entry.1
  let ts := entry.2
  if ackResolved ack bits ps then
    let latency1 := st.latency + (1 / 10) * ((now - ts) - st.latency)
    match lookupA st.eventsWithCallbacks ps with
    | some ess =>
        (⟨removeA st.pendingAcks ps, removeA st.eventsWithCallbacks ps,
          (fireCallbacks .ackCb ess st.eventCallbacks fired).1, latency1⟩,
          (fireCallbacks .ackCb ess st.eventCallbacks fired).2, acked ++ [ps])
    | none =>
        (⟨removeA st.pendingAcks ps, st.eventsWithCallbacks, st.eventCallbacks, latency1⟩,
          fired, acked ++ [ps])
  else if now - ts > packageTimeout then
    match lookupA st.eventsWithCallbacks ps with
    | some ess =>
        (⟨removeA st.pendingAcks ps, removeA st.eventsWithCallbacks ps,
          (fireCallbacks .timeoutCb ess st.eventCallbacks fired).1, st.latency⟩,
          (fireCallbacks .timeoutCb ess st.eventCallbacks fired).2, acked)
    | none =>
        (⟨removeA st.pendingAcks ps, st.eventsWithCallbacks, st.eventCallbacks, st.latency⟩,
          fired, acked)
  else
    (st, fired, acked)

/-- The resolution loop over the snapshot of pending sequences. -/
def resolveLoop (ack : Nat) (bits : List Bool) (now : ℚ) :
    List (Nat × ℚ) → RecvState → List (Nat × CbKind) → List Nat →
    RecvState × List (Nat × CbKind) × List Nat
  | [], st, fired, acked => (st, fired, acked)
  | entry :: rest, st, fired, acked =>
      let r := resolvePendingEntry ack bits now st fired acked entry
      resolveLoop ack bits now rest r.1 r.2.1 r.2.2

/-- Ack/timeout resolution of `Connection._recv` for one received
header `(ack, ack_bitfield)` at time `now`: returns the new connection
state, the invoked callbacks and the sequences treated as
acknowledged. -/
def processReceive (ack : Nat) (bits : List Bool) (now : ℚ) (st : RecvState) :
    RecvState × List (Nat × CbKind) × List Nat :=
  resolveLoop ack bits now st.pendingAcks st [] []

/-- Run a sequence of receives, concatenating the fire logs. -/
def runReceives : List (Nat × List Bool × ℚ) → RecvState → RecvState × List (Nat × CbKind)
  | [], st => (st, [])
  | (ack, bits, now) :: rest, st =>
      let r := processReceive ack bits now st
      let r2 := runReceives rest r.1
      (r2.1, r.2.1 ++ r2.2)

/-! ## Game state updates (`pygase/gamestate.py`)

Python attribute dictionaries are modelled by `PyDict`, an insertion
ordered association list whose values are the primitives permitted by
`Sendable` (ints, strings, byte strings) and nested dictionaries.
`d[k] = v` replaces the first occurrence of `k` in place or appends at
the end, `del d[k]` removes the key and `k in d` is key membership,
exactly as a Python dict with its unique keys behaves.

Both `GameState` and `GameStateUpdate` keep `time_order` inside
`__dict__`; since it is always coerced to an `Sqn` (so it is never a
nested dict and never the `TO_DELETE` bytes), `_recursive_update`
always treats the `time_order` key as a plain overwrite by the update
dict's value.  The embedding therefore carries `time_order` as a
separate `timeOrder` field next to the remaining attributes. -/

mutual

inductive PyVal where
  | intv : Int → PyVal
  | strv : String → PyVal
  | bytesv : List Nat → PyVal
  | dictv : PyDict → PyVal
  deriving DecidableEq, Repr

inductive PyDict where
  | nil : PyDict
  | cons : String → PyVal → PyDict → PyDict
  deriving DecidableEq, Repr

end

/-- Structural induction on the spine of a `PyDict` (values are not
recursed into), packaged for the `induction` tactic. -/
@[induction_eliminator]
def PyDict.recSpine {motive : PyDict → Prop} (nil : motive .nil)
    (cons : ∀ (k : String) (v : PyVal) (rest : PyDict), motive rest → motive (.cons k v rest)) :
    ∀ d : PyDict, motive d
  | .nil => nil
  | .cons k v rest => cons k v rest (PyDict.recSpine nil cons rest)

/-- Python `my_dict[key]` / `my_dict.get(key)` (first occurrence). -/
def lookupD : PyDict → String → Option PyVal
  | .nil, _ => none
  | .cons k v rest, key => if k = key then some v else lookupD rest key

/-- Python `key in my_dict.keys()`. -/
def containsKey (d : PyDict) (k : String) : Bool :=
  (lookupD d k).isSome

/-- Python `my_dict[key] = value`: replace the first occurrence in
place, append at the end if the key is new. -/
def setKey : PyDict → String → PyVal → PyDict
  | .nil, k, v => .cons k v .nil
  | .cons k1 v1 rest, k, v =>
      if k1 = k then .cons k1 v rest else .cons k1 v1 (setKey rest k v)

/-- Python `del my_dict[key]`. -/
def removeKey : PyDict → String → PyDict
  | .nil, _ => .nil
  | .cons k1 v1 rest, k =>
      if k1 = k then removeKey rest k else .cons k1 v1 (removeKey rest k)

def dictKeys : PyDict → List String
  | .nil => []
  | .cons k _ rest => k :: dictKeys rest

/-- Keys of a dictionary are unique; every dictionary that mirrors an
actual Python dict satisfies this. -/
def keysNodup (d : PyDict) : Prop :=
  (dictKeys d).Nodup

instance keysNodupDecidable (d : PyDict) : Decidable (keysNodup d) :=
  inferInstanceAs (Decidable (dictKeys d).Nodup)

/-- `TO_DELETE = bytes.fromhex("d281e5ba")`. -/
def toDeleteVal : PyVal := .bytesv [0xd2, 0x81, 0xe5, 0xba]

/-- Python `value == TO_DELETE` on the modelled value universe
(equality between values of different types is `False` in Python for
these types). -/
def isToDelete (v : PyVal) : Bool :=
  decide (v = toDeleteVal)

def isDictVal : PyVal → Bool
  | .dictv _ => true
  | _ => false

mutual

/-- Embedding of `_recursive_update(my_dict, update_dict, delete)`:
iterate over the update dict, applying the loop body `ruStep` to
`my_dict` for each key/value pair. -/
def recursiveUpdate (del : Bool) (my : PyDict) : PyDict → PyDict
  | .nil => my
  | .cons k v rest => recursiveUpdate del (ruStep del my k v) rest

/-- The body of the `for key, value in update_dict.items()` loop of
`_recursive_update`: the `TO_DELETE` sentinel deletes an existing key
(when `delete` is set), two nested dicts are merged recursively,
anything else is a plain overwrite `my_dict[key] = value`. -/
def ruStep (del : Bool) (my : PyDict) (k : String) (v : PyVal) : PyDict :=
  if isToDelete v && del && containsKey my k then
    removeKey my k
  else
    match v, lookupD my k with
    | .dictv dv, some (.dictv mv) => setKey my k (.dictv (recursiveUpdate del mv dv))
    | _, _ => setKey my k v

end

/-- Left fold of plain key-value writes: the effect of
`_recursive_update` when no value in the update dict is a nested dict
(and deletion is off); see `recursiveUpdate_flat`. -/
def setFold (my : PyDict) : PyDict → PyDict
  | .nil => my
  | .cons k v rest => setFold (setKey my k v) rest

/-- A dict is flat when none of its top-level values is a nested dict. -/
def topFlat : PyDict → Bool
  | .nil => true
  | .cons _ v rest => !isDictVal v && topFlat rest

structure GameStateUpdate where
  timeOrder : Nat
  entries : PyDict
  deriving DecidableEq, Repr

structure GameState where
  timeOrder : Nat
  entries : PyDict
  deriving DecidableEq, Repr

/-- Embedding of `GameStateUpdate.__add__` (`self + other`): if `other
> self` (cyclic `Sqn` comparison of time orders) update `self.__dict__`
with `other`'s and return `self`, else update `other.__dict__` with
`self`'s and return `other`.  In both cases the returned object's
`time_order` is the one written last by `_recursive_update`. -/
def mergeUpdates (u other : GameStateUpdate) : GameStateUpdate :=
  if sqnGt other.timeOrder u.timeOrder then
    ⟨other.timeOrder, recursiveUpdate false u.entries other.entries⟩
  else
    ⟨u.timeOrder, recursiveUpdate false other.entries u.entries⟩

/-- Embedding of `GameStateUpdate.__radd__` applied to a `GameState`
(`state + update`): if the update is newer, update the state's dict
with `delete=True`; otherwise the state is returned unchanged. -/
def applyUpdate (s : GameState) (u : GameStateUpdate) : GameState :=
  if sqnGt u.timeOrder s.timeOrder then
    ⟨u.timeOrder, recursiveUpdate true s.entries u.entries⟩
  else s

/-! ### Dictionary lemmas -/

@[simp]
theorem lookupD_setKey_self (d : PyDict) (k : String) (v : PyVal) :
    lookupD (setKey d k v) k = some v := by
  induction d with
  | nil => simp [setKey, lookupD]
  | cons k1 v1 rest ih =>
      by_cases h : k1 = k <;> simp [setKey, lookupD, h, ih]

theorem lookupD_setKey_ne (d : PyDict) (k k' : String) (v : PyVal) (h : k' ≠ k) :
    lookupD (setKey d k v) k' = lookupD d k' := by
  induction d with
  | nil => simp [setKey, lookupD, Ne.symm h]
  | cons k1 v1 rest ih =>
      by_cases h1 : k1 = k
      · subst h1
        simp [setKey, lookupD, Ne.symm h]
      · simp [setKey, lookupD, h1, ih]

theorem lookupD_removeKey_self (d : PyDict) (k : String) :
    lookupD (removeKey d k) k = none := by
  induction d with
  | nil => simp [removeKey, lookupD]
  | cons k1 v1 rest ih =>
      by_cases h : k1 = k <;> simp [removeKey, lookupD, h, ih]

theorem lookupD_removeKey_ne (d : PyDict) (k k' : String) (h : k' ≠ k) :
    lookupD (removeKey d k) k' = lookupD d k' := by
  induction d with
  | nil => simp [removeKey]
  | cons k1 v1 rest ih =>
      by_cases h1 : k1 = k
      · subst h1
        simp [removeKey, lookupD, Ne.symm h, ih]
      · simp [removeKey, lookupD, h1, ih]

theorem containsKey_setKey_ne (d : PyDict) (k k' : String) (v : PyVal) (h : k' ≠ k) :
    containsKey (setKey d k v) k' = containsKey d k' := by
  simp [containsKey, lookupD_setKey_ne d k k' v h]

@[simp]
theorem containsKey_setKey_self (d : PyDict) (k : String) (v : PyVal) :
    containsKey (setKey d k v) k = true := by
  simp [containsKey]

theorem mem_dictKeys_iff_containsKey (d : PyDict) (k : String) :
    k ∈ dictKeys d ↔ containsKey d k = true := by
  induction d with
  | nil => simp [dictKeys, containsKey, lookupD]
  | cons k1 v1 rest ih =>
      by_cases h : k1 = k
      · subst h
        simp [dictKeys, containsKey, lookupD]
      · have h2 : ¬(k = k1) := fun hh => h hh.symm
        simp [dictKeys, containsKey, lookupD, h, h2, ih]

theorem dictKeys_setKey_of_contains (d : PyDict) (k : String) (v : PyVal)
    (h : containsKey d k = true) : dictKeys (setKey d k v) = dictKeys d := by
  induction d with
  | nil => simp [containsKey, lookupD] at h
  | cons k1 v1 rest ih =>
      by_cases h1 : k1 = k
      · simp [setKey, dictKeys, h1]
      · simp only [containsKey, lookupD, h1, if_false] at h
        simp [setKey, dictKeys, h1, ih h]

theorem dictKeys_setKey_of_new (d : PyDict) (k : String) (v : PyVal)
    (h : containsKey d k = false) : dictKeys (setKey d k v) = dictKeys d ++ [k] := by
  induction d with
  | nil => simp [setKey, dictKeys]
  | cons k1 v1 rest ih =>
      by_cases h1 : k1 = k
      · simp [containsKey, lookupD, h1] at h
      · simp only [containsKey, lookupD, h1, if_false] at h
        simp [setKey, dictKeys, h1, ih h]

theorem keysNodup_setKey (d : PyDict) (k : String) (v : PyVal) (h : keysNodup d) :
    keysNodup (setKey d k v) := by
  by_cases hc : containsKey d k
  · rwa [keysNodup, dictKeys_setKey_of_contains d k v hc]
  · rw [keysNodup, dictKeys_setKey_of_new d k v (by simpa using hc)]
    simp only [List.nodup_append, List.nodup_cons]
    refine ⟨h, by simp, ?_⟩
    intro a ha hb
    simp only [List.mem_singleton] at hb
    subst hb
    rw [mem_dictKeys_iff_containsKey] at ha
    simp [ha] at hc

/-- Overwriting the same key twice keeps only the second write. -/
theorem setKey_setKey_self (d : PyDict) (k : String) (v1 v2 : PyVal) :
    setKey (setKey d k v1) k v2 = setKey d k v2 := by
  induction d with
  | nil => simp [setKey]
  | cons k1 w rest ih =>
      by_cases h : k1 = k <;> simp [setKey, h, ih]

/-- Writes to two different keys commute, provided the first key is
already present (so no ordering question arises for appended keys). -/
theorem setKey_setKey_comm (d : PyDict) (k k1 : String) (v v1 : PyVal)
    (hne : k ≠ k1) (h : containsKey d k = true) :
    setKey (setKey d k1 v1) k v = setKey (setKey d k v) k1 v1 := by
  induction d with
  | nil => simp [containsKey, lookupD] at h
  | cons k2 v2 rest ih =>
      have hne2 : ¬(k1 = k) := fun hh => hne hh.symm
      by_cases h2 : k2 = k
      · subst h2
        simp [setKey, hne, hne2]
      · by_cases h3 : k2 = k1
        · subst h3
          simp [setKey, h2, hne2]
        · simp only [containsKey, lookupD, h2, if_false] at h
          simp [setKey, h2, h3, ih h]

/-- Writing a key that is already present commutes past a fold of
writes that never touch it. -/
theorem setFold_setKey_present (upd : PyDict) (k : String) (v : PyVal) :
    ∀ M : PyDict, containsKey M k = true → k ∉ dictKeys upd →
      setKey (setFold M upd) k v = setFold (setKey M k v) upd := by
  induction upd with
  | nil =>
      intro M _ _
      rfl
  | cons k1 w rest ih =>
      intro M hc hk
      simp only [dictKeys, List.mem_cons, not_or] at hk
      obtain ⟨hk1, hkrest⟩ := hk
      have hc1 : containsKey (setKey M k1 w) k = true := by
        rw [containsKey_setKey_ne M k1 k w hk1]
        exact hc
      simp only [setFold]
      rw [ih (setKey M k1 w) hc1 hkrest,
        setKey_setKey_comm M k k1 v w hk1 hc]

/-- A plain write commutes with a fold of plain writes over a
unique-keyed update dict. -/
theorem setFold_setKey (B : PyDict) (k : String) (v : PyVal) (hB : keysNodup B) :
    ∀ A : PyDict, setFold A (setKey B k v) = setKey (setFold A B) k v := by
  induction B with
  | nil =>
      intro A
      rfl
  | cons k1 v1 B1 ih =>
      intro A
      simp only [keysNodup, dictKeys, List.nodup_cons] at hB
      obtain ⟨hmem, hB1⟩ := hB
      by_cases hk : k1 = k
      · subst hk
        have hstep : setKey (PyDict.cons k1 v1 B1) k1 v = PyDict.cons k1 v B1 := by
          simp [setKey]
        rw [hstep]
        simp only [setFold]
        rw [setFold_setKey_present B1 k1 v (setKey A k1 v1) (by simp) hmem,
          setKey_setKey_self]
      · have hstep : setKey (PyDict.cons k1 v1 B1) k v = PyDict.cons k1 v1 (setKey B1 k v) := by
          simp [setKey, hk]
        rw [hstep]
        simp only [setFold]
        exact ih hB1 (setKey A k1 v1)

/-- Folding plain writes is associative on unique-keyed dicts: updating
with `B` then `C` agrees with updating with `B`-updated-by-`C`. -/
theorem setFold_assoc (C : PyDict) :
    ∀ A B : PyDict, keysNodup B → setFold (setFold A B) C = setFold A (setFold B C) := by
  induction C with
  | nil =>
      intro A B _
      rfl
  | cons k v C1 ih =>
      intro A B hB
      show setFold (setKey (setFold A B) k v) C1 = setFold A (setFold (setKey B k v) C1)
      rw [← setFold_setKey B k v hB A]
      exact ih A (setKey B k v) (keysNodup_setKey B k v hB)

/-! ### Behaviour of `_recursive_update` -/

theorem recursiveUpdate_cons_eq (del : Bool) (my : PyDict) (k : String) (v : PyVal)
    (rest : PyDict) :
    recursiveUpdate del my (.cons k v rest) = recursiveUpdate del (ruStep del my k v) rest := by
  rw [recursiveUpdate]

/-- One loop iteration either deletes the processed key or writes to
it; no other key of `my_dict` is touched. -/
theorem ruStep_shape (del : Bool) (my : PyDict) (k : String) (v : PyVal) :
    ruStep del my k v = removeKey my k ∨ ∃ w, ruStep del my k v = setKey my k w := by
  unfold ruStep
  split
  · exact Or.inl rfl
  · right
    cases v with
    | dictv dv =>
        cases h : lookupD my k with
        | none => exact ⟨_, rfl⟩
        | some w => cases w <;> exact ⟨_, rfl⟩
    | intv n =>
        cases h : lookupD my k with
        | none => exact ⟨_, rfl⟩
        | some w => cases w <;> exact ⟨_, rfl⟩
    | strv s =>
        cases h : lookupD my k with
        | none => exact ⟨_, rfl⟩
        | some w => cases w <;> exact ⟨_, rfl⟩
    | bytesv bs =>
        cases h : lookupD my k with
        | none => exact ⟨_, rfl⟩
        | some w => cases w <;> exact ⟨_, rfl⟩

theorem ruStep_lookup_ne (del : Bool) (my : PyDict) (k : String) (v : PyVal) (k' : String)
    (h : k' ≠ k) : lookupD (ruStep del my k v) k' = lookupD my k' := by
  rcases ruStep_shape del my k v with hs | ⟨w, hs⟩ <;> rw [hs]
  · exact lookupD_removeKey_ne my k k' h
  · exact lookupD_setKey_ne my k k' w h

theorem ruStep_contains_ne (del : Bool) (my : PyDict) (k : String) (v : PyVal) (k' : String)
    (h : k' ≠ k) : containsKey (ruStep del my k v) k' = containsKey my k' := by
  simp [containsKey, ruStep_lookup_ne del my k v k' h]

/-- Keys absent from the update dict are never touched. -/
theorem lookupD_recursiveUpdate_untouched (del : Bool) (upd : PyDict) (k : String) :
    ∀ my, k ∉ dictKeys upd → lookupD (recursiveUpdate del my upd) k = lookupD my k := by
  induction upd with
  | nil =>
      intro my _
      rfl
  | cons k1 v rest ih =>
      intro my hk
      simp only [dictKeys, List.mem_cons, not_or] at hk
      rw [recursiveUpdate_cons_eq, ih (ruStep del my k1 v) hk.2,
        ruStep_lookup_ne del my k1 v k hk.1]

/-- The value found under the processed key right after one loop
iteration of `_recursive_update`. -/
theorem ruStep_lookup_self (del : Bool) (my : PyDict) (k : String) (v : PyVal) :
    lookupD (ruStep del my k v) k =
      if isToDelete v && del then
        (if containsKey my k then none else some v)
      else
        match v, lookupD my k with
        | .dictv dv, some (.dictv mv) => some (.dictv (recursiveUpdate del mv dv))
        | _, _ => some v := by
  unfold ruStep
  cases htd : isToDelete v with
  | false =>
      simp only [htd, Bool.false_and, Bool.and_false, if_neg (by simp : ¬(false = true))]
      cases v with
      | dictv dv =>
          cases hm : lookupD my k with
          | none => simp
          | some w => cases w <;> simp
      | intv n =>
          cases hm : lookupD my k with
          | none => simp
          | some w => cases w <;> simp
      | strv s =>
          cases hm : lookupD my k with
          | none => simp
          | some w => cases w <;> simp
      | bytesv bs =>
          cases hm : lookupD my k with
          | none => simp
          | some w => cases w <;> simp
  | true =>
      have hv : v = toDeleteVal := of_decide_eq_true htd
      subst hv
      cases hdl : del with
      | false =>
          simp only [Bool.and_false, Bool.false_and, if_neg (by simp : ¬(false = true))]
          cases hm : lookupD my k with
          | none => simp [toDeleteVal]
          | some w => cases w <;> simp [toDeleteVal]
      | true =>
          cases hc : containsKey my k with
          | true =>
              simp [htd, hc, lookupD_removeKey_self]
          | false =>
              simp only [htd, hc, Bool.and_true, Bool.true_and, Bool.and_false,
                if_neg (by simp : ¬(false = true)), if_pos rfl]
              cases hm : lookupD my k with
              | none => simp [toDeleteVal]
              | some w => cases w <;> simp [toDeleteVal]

/-- Characterization of the value found under `k` after
`_recursive_update(my_dict, update_dict, delete)`, for a unique-keyed
update dict: the update's entry for `k` (when there is one) decides
the result — deletion for the `TO_DELETE` sentinel on an existing key,
a recursive merge when both values are dicts, a plain overwrite
otherwise. -/
theorem lookupD_recursiveUpdate (del : Bool) (upd : PyDict) (k : String) (hN : keysNodup upd) :
    ∀ my, lookupD (recursiveUpdate del my upd) k =
      match lookupD upd k with
      | none => lookupD my k
      | some v =>
          if isToDelete v && del then
            (if containsKey my k then none else some v)
          else
            match v, lookupD my k with
            | .dictv dv, some (.dictv mv) => some (.dictv (recursiveUpdate del mv dv))
            | _, _ => some v := by
  induction upd with
  | nil =>
      intro my
      rfl
  | cons k1 v1 rest ih =>
      simp only [keysNodup, dictKeys, List.nodup_cons] at hN
      intro my
      rw [recursiveUpdate_cons_eq]
      by_cases hk : k1 = k
      · subst hk
        rw [lookupD_recursiveUpdate_untouched del rest k1 (ruStep del my k1 v1) hN.1,
          ruStep_lookup_self]
        have hlk : lookupD (PyDict.cons k1 v1 rest) k1 = some v1 := by
          simp [lookupD]
        rw [hlk]
      · have hk2 : k ≠ k1 := fun hh => hk hh.symm
        rw [ih hN.2 (ruStep del my k1 v1)]
        have hlk : lookupD (PyDict.cons k1 v1 rest) k = lookupD rest k := by
          simp [lookupD, hk]
        rw [hlk]
        simp only [ruStep_lookup_ne del my k1 v1 k hk2,
          ruStep_contains_ne del my k1 v1 k hk2]

/-! ### Flat update dicts -/

theorem topFlat_setKey (d : PyDict) (k : String) (v : PyVal)
    (hd : topFlat d = true) (hv : isDictVal v = false) : topFlat (setKey d k v) = true := by
  induction d with
  | nil => simp [setKey, topFlat, hv]
  | cons k1 v1 rest ih =>
      simp only [topFlat, Bool.and_eq_true] at hd
      by_cases h : k1 = k
      · subst h
        simp [setKey, topFlat, hv, hd.1, hd.2]
      · simp [setKey, topFlat, h, hd.1, ih hd.2]

theorem topFlat_setFold (B : PyDict) :
    ∀ A, topFlat A = true → topFlat B = true → topFlat (setFold A B) = true := by
  induction B with
  | nil =>
      intro A hA _
      exact hA
  | cons k v rest ih =>
      intro A hA hB
      simp only [topFlat, Bool.and_eq_true, Bool.not_eq_true'] at hB
      exact ih (setKey A k v) (topFlat_setKey A k v hA hB.1) hB.2

/-- On a flat update dict and with deletion off, `_recursive_update` is
exactly the fold of plain key writes. -/
theorem recursiveUpdate_flat (upd : PyDict) (hf : topFlat upd = true) :
    ∀ my, recursiveUpdate false my upd = setFold my upd := by
  induction upd with
  | nil =>
      intro my
      rfl
  | cons k v rest ih =>
      intro my
      simp only [topFlat, Bool.and_eq_true, Bool.not_eq_true'] at hf
      rw [recursiveUpdate_cons_eq]
      have hstep : ruStep false my k v = setKey my k v := by
        unfold ruStep
        rw [if_neg (by simp)]
        cases v with
        | dictv dv => simp [isDictVal] at hf
        | intv n =>
            cases hm : lookupD my k with
            | none => rfl
            | some w => cases w <;> rfl
        | strv s =>
            cases hm : lookupD my k with
            | none => rfl
            | some w => cases w <;> rfl
        | bytesv bs =>
            cases hm : lookupD my k with
            | none => rfl
            | some w => cases w <;> rfl
      rw [hstep]
      exact ih hf.2 (setKey my k v)

/-! ## Claim C2: Sqn cyclic arithmetic -/

/-- C2 (amended): with the default 16-bit size, `Sqn(65535) + 1 ==
Sqn(1)`; the signed difference wraps so that `Sqn(1) - Sqn(65535) == 1`
(one step from 65535 to 1, consistent with the addition wrap — the
spec's claimed value 2 is refuted in
`sqn_sub_wrap_counterexample`); and for all in-range values the
comparisons `a < b` and `a > b` agree with the sign of the signed
distance `a - b`. -/
theorem sqn_wrap_and_order_agreement :
    sqnAdd 65535 1 = 1 ∧ sqnSub 1 65535 = 1 ∧
    ∀ a b : Nat, a ≤ maxSequence → b ≤ maxSequence →
      ((sqnLt a b = true ↔ sqnSub a b < 0) ∧ (sqnGt a b = true ↔ 0 < sqnSub a b)) := by
  refine ⟨by decide, by decide, ?_⟩
  intro a b ha hb
  have hanti := sqnSub_antisymm a b ha hb
  constructor
  · rw [sqnLt_iff_sub_pos]
    omega
  · rw [sqnGt_iff_sub_neg]
    omega

/-- C2 witness: the order-agreement part evaluated at `a = 3`,
`b = 5`. -/
theorem sqn_wrap_and_order_agreement_witness :
    (3 ≤ maxSequence ∧ 5 ≤ maxSequence) ∧
      ((sqnLt 3 5 = true ↔ sqnSub 3 5 < 0) ∧ (sqnGt 3 5 = true ↔ 0 < sqnSub 3 5)) :=
  ⟨⟨by decide, by decide⟩, sqn_wrap_and_order_agreement.2.2 3 5 (by decide) (by decide)⟩

/-- C2 counterexample: the claim states `Sqn(1) - Sqn(65535) == 2`, but
`Sqn.__sub__` evaluates to 1 on that input. -/
theorem sqn_sub_wrap_counterexample : sqnSub 1 65535 = 1 ∧ ¬(sqnSub 1 65535 = 2) := by
  decide

/-! ## Claim C5: out-of-window receives -/

/-- C5: receiving a sequence number older than `remote_sequence` by
more than 32 (here 100 - 50 = 50 > 32) makes `_update_remote_info`
evaluate `self.ack_bitfield[49]` on the 32-character bitfield, raising
an uncaught `IndexError` instead of silently dropping the datagram or
raising `DuplicateSequenceError`; the exception is raised before any
mutation, so `remote_sequence` and `ack_bitfield` are unchanged. -/
theorem out_of_window_index_error :
    updateRemoteInfo ⟨100, List.replicate 32 false⟩ 50 =
      .error (.indexError, ⟨100, List.replicate 32 false⟩) := by
  decide

/-! ## Claim C1: remote bookkeeping on a newer sequence -/

theorem getD_take_lt (l : List Bool) (n i : Nat) (h : i < n) :
    (l.take n).getD i false = l.getD i false := by
  simp [List.getD_eq_getElem?_getD, List.getElem?_take, h]

theorem getD_append_left (l1 l2 : List Bool) (i : Nat) (h : i < l1.length) :
    (l1 ++ l2).getD i false = l1.getD i false := by
  simp [List.getD_eq_getElem?_getD, List.getElem?_append, h]

theorem getD_append_right (l1 l2 : List Bool) (i : Nat) (h : l1.length ≤ i) :
    (l1 ++ l2).getD i false = l2.getD (i - l1.length) false := by
  simp [List.getD_eq_getElem?_getD, List.getElem?_append_right, h]

theorem getD_replicate_false (n i : Nat) :
    (List.replicate n (false : Bool)).getD i false = false := by
  by_cases h : i < n
  · simp [List.getD_eq_getElem?_getD, List.getElem?_replicate, h]
  · simp [List.getD_eq_getElem?_getD, List.getElem?_replicate, h]

/-- C1 (amended): on a connection that has already received a datagram,
a newer sequence (`d < 0`) replaces `remote_sequence` and shifts the
32-character `ack_bitfield` right by `|d|`; the vacated positions are
filled with zeros except that for `d = -1` the single shifted-in bit
(position 0) is set to record the previous `remote_sequence` — for
`d <= -2` the code's `zfill` pads with zeros only and the bit at
position `|d| - 1` is NOT set.  In particular, after a fresh connection
receives 99, 101, 100 in that order, `remote_sequence` is 101 and the
bitfield is one `'1'` followed by 31 zeros (not three ones; see
`update_remote_info_reorder_counterexample`). -/
theorem update_remote_info_newer_shift (st : ConnInfo) (s : Nat)
    (hr : st.remoteSequence ≠ 0) (hlen : st.ackBitfield.length = 32)
    (hneg : sqnSub st.remoteSequence s < 0) :
    (∃ bits : List Bool,
      updateRemoteInfo st s = .ok ⟨s, bits⟩ ∧ bits.length = 32 ∧
      ∀ i : Nat, i < 32 →
        bits.getD i false =
          if i < (-(sqnSub st.remoteSequence s)).toNat then
            decide (sqnSub st.remoteSequence s = -1 ∧ i = 0)
          else
            st.ackBitfield.getD (i - (-(sqnSub st.remoteSequence s)).toNat) false) ∧
    recvSequence freshConnInfo [99, 101, 100] = .ok ⟨101, true :: List.replicate 31 false⟩ := by
  refine ⟨?_, by decide⟩
  have hstep : updateRemoteInfo st s = .ok ⟨s,
      if sqnSub st.remoteSequence s = -1 then
        true :: st.ackBitfield.take (st.ackBitfield.length - 1)
      else
        zfill32 (st.ackBitfield.take
          (st.ackBitfield.length - (-(sqnSub st.remoteSequence s)).toNat))⟩ := by
    unfold updateRemoteInfo
    rw [if_neg hr, if_pos hneg]
  by_cases hone : sqnSub st.remoteSequence s = -1
  · rw [if_pos hone] at hstep
    refine ⟨_, hstep, ?_, ?_⟩
    · simp [hlen]
    · intro i hi
      rw [hone]
      have hone' : ((-(-1 : Int)).toNat) = 1 := by decide
      rw [hone']
      match i with
      | 0 => simp
      | j + 1 =>
          have hj : j < 31 := by omega
          rw [List.getD_cons_succ, hlen]
          have h31 : (32 : Nat) - 1 = 31 := by norm_num
          rw [h31, getD_take_lt st.ackBitfield 31 j hj, if_neg (by omega)]
          simp
  · rw [if_neg hone] at hstep
    set k := (-(sqnSub st.remoteSequence s)).toNat with hkdef
    have hk2 : 2 ≤ k := by omega
    have hlt : (st.ackBitfield.take (st.ackBitfield.length - k)).length = 32 - k := by
      simp [hlen]
    refine ⟨_, hstep, ?_, ?_⟩
    · simp only [zfill32, List.length_append, List.length_replicate, hlt]
      omega
    · intro i hi
      have hrhs : ¬(sqnSub st.remoteSequence s = -1 ∧ i = 0) := fun hc => hone hc.1
      simp only [zfill32, hlt]
      by_cases him : i < 32 - (32 - k)
      · rw [getD_append_left _ _ i (by simp only [List.length_replicate]; omega),
          getD_replicate_false, if_pos (by omega)]
        simp [hrhs]
      · have hk32 : k < 32 := by omega
        rw [getD_append_right _ _ i (by simp only [List.length_replicate]; omega)]
        simp only [List.length_replicate]
        have hm : 32 - (32 - k) = k := by omega
        rw [hm, getD_take_lt st.ackBitfield (st.ackBitfield.length - k) (i - k)
          (by omega), if_neg (by omega)]

/-- C1 witness: the general part evaluated at `remote_sequence = 99`,
an all-zero bitfield and received sequence 101 (`d = -2`). -/
theorem update_remote_info_newer_shift_witness :
    ((99 : Nat) ≠ 0 ∧ (List.replicate 32 (false : Bool)).length = 32 ∧ sqnSub 99 101 < 0) ∧
    ((∃ bits : List Bool,
        updateRemoteInfo ⟨99, List.replicate 32 false⟩ 101 = .ok ⟨101, bits⟩ ∧
        bits.length = 32 ∧
        ∀ i : Nat, i < 32 →
          bits.getD i false =
            if i < (-(sqnSub 99 101)).toNat then
              decide (sqnSub 99 101 = -1 ∧ i = 0)
            else
              (List.replicate 32 (false : Bool)).getD (i - (-(sqnSub 99 101)).toNat) false) ∧
      recvSequence freshConnInfo [99, 101, 100] = .ok ⟨101, true :: List.replicate 31 false⟩) :=
  ⟨⟨by decide, by decide, by decide⟩,
    update_remote_info_newer_shift ⟨99, List.replicate 32 false⟩ 101 (by decide) (by decide)
      (by decide)⟩

/-- C1 counterexample: after the receive order 99, 101, 100 on a fresh
connection the bitfield is a single `'1'` followed by 31 zeros — not
`'111'` followed by 29 zeros as the claim states (the record of
sequence 99 is lost when 101 shifts the bitfield by 2: `zfill` shifts
in zeros without setting bit `|d| - 1`). -/
theorem update_remote_info_reorder_counterexample :
    recvSequence freshConnInfo [99, 101, 100] = .ok ⟨101, true :: List.replicate 31 false⟩ ∧
    ¬(recvSequence freshConnInfo [99, 101, 100] =
        .ok ⟨101, true :: true :: true :: List.replicate 29 false⟩) := by
  decide

/-! ## Claim C4: duplicate suppression -/

theorem get_eq_getD (l : List Bool) (i : Nat) (h : i < l.length) :
    l.get ⟨i, h⟩ = l.getD i false := by
  simp [List.get_eq_getElem, List.getD_eq_getElem?_getD, List.getElem?_eq_getElem h]

/-- C4: a datagram whose sequence was already recorded — signed
distance `d = 0` against `remote_sequence`, or `0 < d <= 32` with the
ack-bitfield bit at `d - 1` already set — raises
`DuplicateSequenceError` and leaves `remote_sequence` and
`ack_bitfield` unchanged (the error carries the untouched state);
equivalently, whenever processing a nonzero sequence succeeds,
processing the same sequence again immediately raises
`DuplicateSequenceError` without altering state. -/
theorem duplicate_sequence_rejected :
    (∀ (st : ConnInfo) (s : Nat),
      st.remoteSequence ≠ 0 → st.ackBitfield.length = 32 →
      (sqnSub st.remoteSequence s = 0 ∨
        (0 < sqnSub st.remoteSequence s ∧ sqnSub st.remoteSequence s ≤ 32 ∧
          st.ackBitfield.getD (sqnSub st.remoteSequence s - 1).toNat false = true)) →
      updateRemoteInfo st s = .error (.duplicateSequence, st)) ∧
    (∀ (st st' : ConnInfo) (s : Nat), s ≠ 0 →
      updateRemoteInfo st s = .ok st' →
      updateRemoteInfo st' s = .error (.duplicateSequence, st')) := by
  constructor
  · intro st s hr hlen hdup
    unfold updateRemoteInfo
    rw [if_neg hr]
    rcases hdup with h0 | ⟨h1, h2, h3⟩
    · rw [if_neg (by omega), if_pos h0]
    · rw [if_neg (by omega), if_neg (by omega)]
      have hidx : (sqnSub st.remoteSequence s - 1).toNat < st.ackBitfield.length := by
        rw [hlen]
        omega
      rw [dif_pos hidx, get_eq_getD st.ackBitfield _ hidx, if_pos h3]
  · intro st st' s hs hok
    obtain ⟨r, bits⟩ := st
    have hself : ∀ bits2 : List Bool,
        updateRemoteInfo ⟨s, bits2⟩ s = .error (.duplicateSequence, ⟨s, bits2⟩) := by
      intro bits2
      have hz : sqnSub s s = 0 := by
        simp [sqnSub]
      simp [updateRemoteInfo, hs, hz]
    simp only [updateRemoteInfo] at hok
    split_ifs at hok with h1 h2 h3 h4 h5 h6
    · rw [Except.ok.injEq] at hok
      subst hok
      exact hself bits
    · rw [Except.ok.injEq] at hok
      subst hok
      exact hself _
    · rw [Except.ok.injEq] at hok
      subst hok
      exact hself _
    · rw [Except.ok.injEq] at hok
      subst hok
      simp only [updateRemoteInfo]
      rw [if_neg h1, if_neg h2, if_neg h4]
      have hmin : min ((sqnSub r s - 1).toNat) bits.length = (sqnSub r s - 1).toNat :=
        Nat.min_eq_left (Nat.le_of_lt h5)
      have hlen2 : (bits.take (sqnSub r s - 1).toNat ++ [true]
          ++ bits.drop (sqnSub r s).toNat).length = bits.length := by
        simp only [List.length_append, List.length_take, List.length_cons, List.length_nil,
          List.length_drop, hmin]
        omega
      rw [dif_pos (by rw [hlen2]; exact h5)]
      have hbit : (bits.take (sqnSub r s - 1).toNat ++ [true]
          ++ bits.drop (sqnSub r s).toNat).getD ((sqnSub r s - 1).toNat) false = true := by
        rw [getD_append_left _ _ _ (by
          simp only [List.length_append, List.length_take, List.length_cons, List.length_nil,
            hmin]
          omega)]
        rw [getD_append_right _ _ _ (by simp only [List.length_take, hmin]; omega)]
        have ha : ((sqnSub r s).toNat - 1) ⊓ bits.length = (sqnSub r s).toNat - 1 := by
          omega
        simp [List.length_take, ha]
      rw [get_eq_getD _ _ (by rw [hlen2]; exact h5), hbit, if_pos rfl]

/-- C4 witness: both parts evaluated at `remote_sequence = 7`, a
bitfield with bit 0 set, received sequence 7 (duplicate at distance 0)
and, for the second part, a fresh processing of sequence 5 followed by
a repeat of 5. -/
theorem duplicate_sequence_rejected_witness :
    ((7 : Nat) ≠ 0 ∧ (true :: List.replicate 31 (false : Bool)).length = 32 ∧
      sqnSub 7 7 = 0 ∧
      updateRemoteInfo ⟨7, true :: List.replicate 31 false⟩ 7 =
        .error (.duplicateSequence, ⟨7, true :: List.replicate 31 false⟩)) ∧
    ((5 : Nat) ≠ 0 ∧
      updateRemoteInfo ⟨7, true :: List.replicate 31 false⟩ 5 =
        .ok ⟨7, true :: true :: List.replicate 30 false⟩ ∧
      updateRemoteInfo ⟨7, true :: true :: List.replicate 30 false⟩ 5 =
        .error (.duplicateSequence, ⟨7, true :: true :: List.replicate 30 false⟩)) := by
  refine ⟨⟨by decide, by decide, by decide, ?_⟩, ⟨by decide, by decide, ?_⟩⟩
  · exact duplicate_sequence_rejected.1 ⟨7, true :: List.replicate 31 false⟩ 7 (by decide)
      (by decide) (Or.inl (by decide))
  · exact duplicate_sequence_rejected.2 ⟨7, true :: List.replicate 31 false⟩
      ⟨7, true :: true :: List.replicate 30 false⟩ 5 (by decide) (by decide)

/-! ## Claim C9: amortized event append -/

theorem length_toBytesBE (len n : Nat) : (toBytesBE len n).length = len := by
  simp [toBytesBE]

theorem length_toBytearray (h : Header) : h.toBytearray.length = 12 := by
  simp [Header.toBytearray, protocolId, length_toBytesBE]

theorem createEventBlock_append (evs : List Event) (e : Event) :
    createEventBlock (evs ++ [e]) =
      createEventBlock evs ++ (toBytesBE 2 e.bytes.length ++ e.bytes) := by
  induction evs with
  | nil => simp [createEventBlock]
  | cons a rest ih => simp [createEventBlock, ih]

/-- C9: for every package whose serialized size stays within the
2048-byte cap, serializing, then adding an event via `add_event`, then
serializing again yields exactly the same bytes as serializing a
package built up front with the full event list; and `to_datagram`
raises `OverflowError` exactly when the datagram would exceed 2048
bytes, as does `add_event` on an already-serialized package whose
cached datagram would grow past 2048 bytes (the package is unchanged
on error). -/
theorem package_amortized_append (h : Header) (evs : List Event) (e : Event)
    (hcap : (h.toBytearray ++ createEventBlock (evs ++ [e])).length ≤ packageMaxSize) :
    (Package.toDatagram ⟨h, evs, none⟩ =
        .ok (h.toBytearray ++ createEventBlock evs,
          ⟨h, evs, some (h.toBytearray ++ createEventBlock evs)⟩)) ∧
    (Package.addEvent ⟨h, evs, some (h.toBytearray ++ createEventBlock evs)⟩ e =
        .ok ⟨h, evs ++ [e], some (h.toBytearray ++ createEventBlock (evs ++ [e]))⟩) ∧
    (Package.toDatagram ⟨h, evs ++ [e], some (h.toBytearray ++ createEventBlock (evs ++ [e]))⟩ =
        .ok (h.toBytearray ++ createEventBlock (evs ++ [e]),
          ⟨h, evs ++ [e], some (h.toBytearray ++ createEventBlock (evs ++ [e]))⟩)) ∧
    (Package.toDatagram ⟨h, evs ++ [e], none⟩ =
        .ok (h.toBytearray ++ createEventBlock (evs ++ [e]),
          ⟨h, evs ++ [e], some (h.toBytearray ++ createEventBlock (evs ++ [e]))⟩)) ∧
    (∀ evs2 : List Event, packageMaxSize < (h.toBytearray ++ createEventBlock evs2).length →
        Package.toDatagram ⟨h, evs2, none⟩ = .error (.overflow, ⟨h, evs2, none⟩)) ∧
    (∀ (d : List Nat) (e2 : Event), packageMaxSize < d.length + e2.bytes.length + 2 →
        Package.addEvent ⟨h, evs, some d⟩ e2 = .error (.overflow, ⟨h, evs, some d⟩)) := by
  have hlenfull : (h.toBytearray ++ createEventBlock (evs ++ [e])).length =
      (h.toBytearray ++ createEventBlock evs).length + e.bytes.length + 2 := by
    rw [createEventBlock_append]
    simp [length_toBytesBE]
    omega
  refine ⟨?_, ?_, ?_, ?_, ?_, ?_⟩
  · simp only [Package.toDatagram]
    rw [if_neg (by omega)]
  · simp only [Package.addEvent]
    rw [if_neg (by omega)]
    rw [createEventBlock_append]
    simp [List.append_assoc]
  · simp only [Package.toDatagram]
  · simp only [Package.toDatagram]
    rw [if_neg (by omega)]
  · intro evs2 hover
    simp only [Package.toDatagram]
    rw [if_pos hover]
  · intro d e2 hover
    simp only [Package.addEvent]
    rw [if_pos hover]

/-- C9 witness: the theorem applied to a concrete header, a one-event
package and a two-byte second event. -/
theorem package_amortized_append_witness :
    (((⟨1, 2, List.replicate 32 false⟩ : Header).toBytearray
        ++ createEventBlock ([⟨[7]⟩] ++ [⟨[8, 9]⟩])).length ≤ packageMaxSize) ∧
    (Package.toDatagram ⟨⟨1, 2, List.replicate 32 false⟩, [⟨[7]⟩], none⟩ =
        .ok ((⟨1, 2, List.replicate 32 false⟩ : Header).toBytearray ++ createEventBlock [⟨[7]⟩],
          ⟨⟨1, 2, List.replicate 32 false⟩, [⟨[7]⟩],
            some ((⟨1, 2, List.replicate 32 false⟩ : Header).toBytearray
              ++ createEventBlock [⟨[7]⟩])⟩)) :=
  ⟨by decide,
    (package_amortized_append ⟨1, 2, List.replicate 32 false⟩ [⟨[7]⟩] ⟨[8, 9]⟩ (by decide)).1⟩

/-! ## Claim C6: the send-loop event drain -/

/-- On a package without a serialized cache, `add_event` performs no
size check, so the drain loop never aborts: it simply moves
`min(5 - len(events), len(queue))` events from the queue into the
package. -/
theorem drainLoop_fresh_ok (newSeq : Nat) :
    ∀ (queue : List (Event × Nat)) (p : Package) (ewc : List (Nat × List Nat)),
      p.datagram = none →
      ∃ ewc1, drainLoop newSeq p queue ewc =
        .ok (⟨p.header, p.events ++ (queue.take (5 - p.events.length)).map Prod.fst, none⟩,
          queue.drop (5 - p.events.length), ewc1) := by
  intro queue
  induction queue with
  | nil =>
      intro p ewc hp
      refine ⟨ewc, ?_⟩
      obtain ⟨hd, evs, dg⟩ := p
      simp only at hp
      subst hp
      simp [drainLoop]
  | cons entry rest ih =>
      intro p ewc hp
      obtain ⟨event, cs⟩ := entry
      by_cases h5 : 5 ≤ p.events.length
      · refine ⟨ewc, ?_⟩
        have hz : 5 - p.events.length = 0 := by omega
        obtain ⟨hd, evs, dg⟩ := p
        simp only at hp h5 hz
        subst hp
        simp [drainLoop, h5, hz]
      · obtain ⟨hd, evs, dg⟩ := p
        simp only at hp h5
        subst hp
        have hadd : Package.addEvent ⟨hd, evs, none⟩ event =
            .ok ⟨hd, evs ++ [event], none⟩ := by
          simp [Package.addEvent]
        obtain ⟨ewc1, hih⟩ := ih ⟨hd, evs ++ [event], none⟩
          (if cs ≠ 0 then appendCallbackSeq newSeq cs ewc else ewc) rfl
        refine ⟨ewc1, ?_⟩
        simp only [drainLoop, if_neg h5, hadd]
        rw [hih]
        have hlen : evs.length < 5 := by
          simpa using h5
        have htake : evs ++ [event] ++ (rest.take (5 - (evs ++ [event]).length)).map Prod.fst =
            evs ++ (((event, cs) :: rest).take (5 - evs.length)).map Prod.fst := by
          have h1 : 5 - evs.length = (5 - (evs.length + 1)) + 1 := by omega
          simp only [List.length_append, List.length_cons, List.length_nil, h1, List.take_succ_cons,
            List.map_cons, List.append_assoc, List.cons_append, List.nil_append]
        have hdrop : rest.drop (5 - (evs ++ [event]).length) =
            ((event, cs) :: rest).drop (5 - evs.length) := by
          have h1 : 5 - evs.length = (5 - (evs.length + 1)) + 1 := by omega
          simp only [List.length_append, List.length_cons, List.length_nil, h1, List.drop_succ_cons]
        rw [htake, hdrop]

/-- C6 (amended): each call of `_send_next_package` increments
`local_sequence` and drains up to five queued events into the new
package unconditionally — `add_event` performs no size check on a
freshly built package, so a drained event never stays in the queue —
and `OverflowError` propagates out of the send path exactly when the
serialized package holding all drained events exceeds 2048 bytes,
which can happen even though every drained event fits individually
(see `send_drain_overflow_counterexample`). -/
theorem send_next_package_drain (now : ℚ) (st : SendState) :
    ((sendResultState (sendNextPackage now st)).localSequence = sqnAdd st.localSequence 1) ∧
    ((sendResultState (sendNextPackage now st)).outgoingEventQueue =
      st.outgoingEventQueue.drop 5) ∧
    (isOkB (sendNextPackage now st) = false ↔
      packageMaxSize < 12 +
        (createEventBlock ((st.outgoingEventQueue.take 5).map Prod.fst)).length) ∧
    (∀ st1 d, sendNextPackage now st = .ok (st1, d) →
      d = (Header.toBytearray ⟨sqnAdd st.localSequence 1, st.remoteSequence, st.ackBitfield⟩)
          ++ createEventBlock ((st.outgoingEventQueue.take 5).map Prod.fst) ∧
      st1.pendingAcks = st.pendingAcks ++ [(sqnAdd st.localSequence 1, now)]) ∧
    (isOkB (sendNextPackage now st) = false →
      ∃ st1, sendNextPackage now st = .error (.overflow, st1)) := by
  obtain ⟨ewc1, hdrain⟩ := drainLoop_fresh_ok (sqnAdd st.localSequence 1)
    st.outgoingEventQueue
    ⟨⟨sqnAdd st.localSequence 1, st.remoteSequence, st.ackBitfield⟩, [], none⟩
    st.eventsWithCallbacks rfl
  simp only [List.nil_append, List.length_nil, Nat.sub_zero] at hdrain
  have hline : (Header.toBytearray ⟨sqnAdd st.localSequence 1, st.remoteSequence, st.ackBitfield⟩
      ++ createEventBlock ((st.outgoingEventQueue.take 5).map Prod.fst)).length =
      12 + (createEventBlock ((st.outgoingEventQueue.take 5).map Prod.fst)).length := by
    simp [length_toBytearray]
  by_cases hover : packageMaxSize <
      12 + (createEventBlock ((st.outgoingEventQueue.take 5).map Prod.fst)).length
  · have hsend : sendNextPackage now st =
        .error (.overflow, { st with
          localSequence := sqnAdd st.localSequence 1,
          outgoingEventQueue := st.outgoingEventQueue.drop 5,
          eventsWithCallbacks := ewc1 }) := by
      simp only [sendNextPackage]
      rw [hdrain]
      simp only [Package.toDatagram]
      rw [if_pos (by rw [hline]; exact hover)]
    rw [hsend]
    refine ⟨rfl, rfl, ?_, ?_, ?_⟩
    · exact iff_of_true rfl hover
    · intro st1 d hcontra
      simp at hcontra
    · intro _
      exact ⟨_, rfl⟩
  · have hsend : sendNextPackage now st =
        .ok ({ st with
          localSequence := sqnAdd st.localSequence 1,
          outgoingEventQueue := st.outgoingEventQueue.drop 5,
          eventsWithCallbacks := ewc1,
          pendingAcks := st.pendingAcks ++ [(sqnAdd st.localSequence 1, now)] },
          (Header.toBytearray ⟨sqnAdd st.localSequence 1, st.remoteSequence, st.ackBitfield⟩)
            ++ createEventBlock ((st.outgoingEventQueue.take 5).map Prod.fst)) := by
      simp only [sendNextPackage]
      rw [hdrain]
      simp only [Package.toDatagram]
      rw [if_neg (by rw [hline]; omega)]
    rw [hsend]
    refine ⟨rfl, rfl, ?_, ?_, ?_⟩
    · exact iff_of_false (by simp [isOkB]) hover
    · intro st1 d hok
      rw [Except.ok.injEq, Prod.mk.injEq] at hok
      exact ⟨hok.2.symm, by rw [← hok.1]⟩
    · intro hcontra
      simp [isOkB] at hcontra

/-- C6 witness: the amended theorem applied to a state with two queued
small events; both are drained and the send succeeds. -/
theorem send_next_package_drain_witness :
    (sendResultState (sendNextPackage 0 ⟨0, 0, List.replicate 32 false,
        [(⟨[1]⟩, 0), (⟨[2]⟩, 0)], [], []⟩)).localSequence = sqnAdd 0 1 ∧
    (sendResultState (sendNextPackage 0 ⟨0, 0, List.replicate 32 false,
        [(⟨[1]⟩, 0), (⟨[2]⟩, 0)], [], []⟩)).outgoingEventQueue =
      ([(⟨[1]⟩, 0), (⟨[2]⟩, 0)] : List (Event × Nat)).drop 5 :=
  ⟨(send_next_package_drain 0 ⟨0, 0, List.replicate 32 false,
      [(⟨[1]⟩, 0), (⟨[2]⟩, 0)], [], []⟩).1,
    (send_next_package_drain 0 ⟨0, 0, List.replicate 32 false,
      [(⟨[1]⟩, 0), (⟨[2]⟩, 0)], [], []⟩).2.1⟩

/-- C6 counterexample: two queued events of 1100 bytes each.  Each
alone serializes fine (1114 <= 2048 bytes), so no single event exceeds
the budget; yet `_send_next_package` drains both (the drain does not
abort — the queue is left empty, the events do not stay queued) and
`to_datagram` then raises `OverflowError` (12 + 2*1102 = 2216 > 2048),
which propagates out of the send path. -/
theorem send_drain_overflow_counterexample :
    (sendNextPackage 0 ⟨0, 0, List.replicate 32 false,
        [(⟨List.replicate 1100 7⟩, 0), (⟨List.replicate 1100 9⟩, 0)], [], []⟩ =
      .error (.overflow, ⟨1, 0, List.replicate 32 false, [], [], []⟩)) ∧
    isOkB (Package.toDatagram ⟨⟨1, 0, List.replicate 32 false⟩,
      [⟨List.replicate 1100 7⟩], none⟩) = true ∧
    isOkB (Package.toDatagram ⟨⟨1, 0, List.replicate 32 false⟩,
      [⟨List.replicate 1100 9⟩], none⟩) = true := by
  have hone : ∀ b : Nat, ((⟨1, 0, List.replicate 32 false⟩ : Header).toBytearray ++
      createEventBlock [⟨List.replicate 1100 b⟩]).length = 1114 := by
    intro b
    simp only [List.length_append, length_toBytearray, createEventBlock, length_toBytesBE,
      List.length_replicate, List.length_nil]
  refine ⟨?_, ?_, ?_⟩
  · have hdrain : drainLoop (sqnAdd 0 1)
        ⟨⟨sqnAdd 0 1, 0, List.replicate 32 false⟩, [], none⟩
        [(⟨List.replicate 1100 7⟩, 0), (⟨List.replicate 1100 9⟩, 0)]
        ([] : List (Nat × List Nat)) =
        .ok (⟨⟨sqnAdd 0 1, 0, List.replicate 32 false⟩,
          [⟨List.replicate 1100 7⟩, ⟨List.replicate 1100 9⟩], none⟩, [], []) := rfl
    have hlen : ((⟨sqnAdd 0 1, 0, List.replicate 32 false⟩ : Header).toBytearray ++
        createEventBlock [⟨List.replicate 1100 7⟩, ⟨List.replicate 1100 9⟩]).length = 2216 := by
      simp only [List.length_append, length_toBytearray, createEventBlock, length_toBytesBE,
        List.length_replicate, List.length_nil]
    simp only [sendNextPackage]
    rw [hdrain]
    simp only [Package.toDatagram]
    rw [if_pos (by rw [hlen]; decide)]
    rfl
  · simp only [Package.toDatagram]
    rw [if_neg (by rw [hone 7]; decide)]
    rfl
  · simp only [Package.toDatagram]
    rw [if_neg (by rw [hone 9]; decide)]
    rfl

/-! ## Claim C7: the update merge algebra -/

/-- C7 (amended): merging a newer update into an older one takes the
newer `time_order` (in both operand orders) and, per key, the
newer operand's value, recursing into nested mappings; applying a
strictly older update to a game state is a no-op; and merge is
associative for updates whose dicts are flat (no nested-mapping
values) and whose time orders form a chain under the cyclic
comparison.  Unrestricted associativity is false: it fails for nested
mappings and for cyclic time-order triples (see
`merge_not_associative_counterexample`). -/
theorem merge_algebra_flat_chain :
    (∀ U V W : GameStateUpdate, keysNodup V.entries →
      topFlat V.entries = true → topFlat W.entries = true →
      sqnGt V.timeOrder U.timeOrder = true → sqnGt W.timeOrder V.timeOrder = true →
      sqnGt W.timeOrder U.timeOrder = true →
      mergeUpdates (mergeUpdates U V) W = mergeUpdates U (mergeUpdates V W)) ∧
    (∀ U V : GameStateUpdate, U.timeOrder ≤ maxSequence → V.timeOrder ≤ maxSequence →
      sqnGt V.timeOrder U.timeOrder = true →
      (mergeUpdates U V).timeOrder = V.timeOrder ∧
      (mergeUpdates V U).timeOrder = V.timeOrder) ∧
    (∀ (U V : GameStateUpdate) (k : String), keysNodup V.entries →
      sqnGt V.timeOrder U.timeOrder = true →
      lookupD (mergeUpdates U V).entries k =
        match lookupD V.entries k with
        | none => lookupD U.entries k
        | some v =>
            match v, lookupD U.entries k with
            | .dictv dv, some (.dictv mv) => some (.dictv (recursiveUpdate false mv dv))
            | _, _ => some v) ∧
    (∀ (S : GameState) (U : GameStateUpdate), sqnLt U.timeOrder S.timeOrder = true →
      applyUpdate S U = S) := by
  refine ⟨?_, ?_, ?_, ?_⟩
  · intro U V W hN hfV hfW hVU hWV hWU
    have e1 : mergeUpdates U V = ⟨V.timeOrder, setFold U.entries V.entries⟩ := by
      simp only [mergeUpdates, if_pos hVU]
      rw [recursiveUpdate_flat V.entries hfV]
    have e2 : mergeUpdates V W = ⟨W.timeOrder, setFold V.entries W.entries⟩ := by
      simp only [mergeUpdates, if_pos hWV]
      rw [recursiveUpdate_flat W.entries hfW]
    rw [e1, e2]
    have e3 : mergeUpdates ⟨V.timeOrder, setFold U.entries V.entries⟩ W =
        ⟨W.timeOrder, setFold (setFold U.entries V.entries) W.entries⟩ := by
      simp only [mergeUpdates, if_pos hWV]
      rw [recursiveUpdate_flat W.entries hfW]
    have e4 : mergeUpdates U ⟨W.timeOrder, setFold V.entries W.entries⟩ =
        ⟨W.timeOrder, setFold U.entries (setFold V.entries W.entries)⟩ := by
      simp only [mergeUpdates, if_pos hWU]
      rw [recursiveUpdate_flat (setFold V.entries W.entries)
        (topFlat_setFold W.entries V.entries hfV hfW)]
    rw [e3, e4, setFold_assoc W.entries U.entries V.entries hN]
  · intro U V hU hV hgt
    have h1 : sqnSub U.timeOrder V.timeOrder < 0 := (sqnGt_iff_sub_neg _ _).mp hgt
    have h2 := sqnSub_antisymm U.timeOrder V.timeOrder hU hV
    have hlt : ¬(sqnGt U.timeOrder V.timeOrder = true) := by
      rw [sqnGt_iff_sub_neg]
      omega
    constructor
    · simp only [mergeUpdates, if_pos hgt]
    · simp only [mergeUpdates, if_neg hlt]
  · intro U V k hN hgt
    simp only [mergeUpdates, if_pos hgt]
    rw [lookupD_recursiveUpdate false V.entries k hN U.entries]
    simp only [Bool.and_false, Bool.false_eq_true, if_false]
  · intro S U hlt
    have hgt := sqnGt_eq_false_of_sqnLt _ _ hlt
    simp [applyUpdate, hgt]

/-- C7 witness: the four parts evaluated on small concrete updates
(flat dicts, time orders 1 < 2 < 3, and an older update applied to a
newer state). -/
theorem merge_algebra_flat_chain_witness :
    (keysNodup (PyDict.cons "a" (.intv 2) .nil) ∧
      topFlat (PyDict.cons "a" (.intv 2) .nil) = true ∧
      topFlat (PyDict.cons "b" (.intv 3) .nil) = true ∧
      sqnGt 2 1 = true ∧ sqnGt 3 2 = true ∧ sqnGt 3 1 = true ∧
      (1 : Nat) ≤ maxSequence ∧ (2 : Nat) ≤ maxSequence ∧ sqnLt 4 5 = true) ∧
    (mergeUpdates (mergeUpdates ⟨1, .cons "a" (.intv 1) .nil⟩ ⟨2, .cons "a" (.intv 2) .nil⟩)
        ⟨3, .cons "b" (.intv 3) .nil⟩ =
      mergeUpdates ⟨1, .cons "a" (.intv 1) .nil⟩
        (mergeUpdates ⟨2, .cons "a" (.intv 2) .nil⟩ ⟨3, .cons "b" (.intv 3) .nil⟩)) ∧
    ((mergeUpdates ⟨1, .cons "a" (.intv 1) .nil⟩ ⟨2, .cons "a" (.intv 2) .nil⟩).timeOrder = 2 ∧
      (mergeUpdates ⟨2, .cons "a" (.intv 2) .nil⟩ ⟨1, .cons "a" (.intv 1) .nil⟩).timeOrder = 2) ∧
    (lookupD (mergeUpdates ⟨1, .cons "a" (.intv 1) .nil⟩
        ⟨2, .cons "a" (.intv 2) .nil⟩).entries "a" =
      match lookupD (PyDict.cons "a" (.intv 2) .nil) "a" with
      | none => lookupD (PyDict.cons "a" (.intv 1) .nil) "a"
      | some v =>
          match v, lookupD (PyDict.cons "a" (.intv 1) .nil) "a" with
          | .dictv dv, some (.dictv mv) => some (.dictv (recursiveUpdate false mv dv))
          | _, _ => some v) ∧
    applyUpdate ⟨5, .cons "a" (.intv 9) .nil⟩ ⟨4, .cons "a" (.intv 1) .nil⟩ =
      ⟨5, .cons "a" (.intv 9) .nil⟩ :=
  ⟨⟨by decide, by decide, by decide, by decide, by decide, by decide, by decide, by decide,
      by decide⟩,
    merge_algebra_flat_chain.1 ⟨1, .cons "a" (.intv 1) .nil⟩ ⟨2, .cons "a" (.intv 2) .nil⟩
      ⟨3, .cons "b" (.intv 3) .nil⟩ (by decide) (by decide) (by decide) (by decide) (by decide)
      (by decide),
    merge_algebra_flat_chain.2.1 ⟨1, .cons "a" (.intv 1) .nil⟩ ⟨2, .cons "a" (.intv 2) .nil⟩
      (by decide) (by decide) (by decide),
    merge_algebra_flat_chain.2.2.1 ⟨1, .cons "a" (.intv 1) .nil⟩ ⟨2, .cons "a" (.intv 2) .nil⟩
      "a" (by decide) (by decide),
    merge_algebra_flat_chain.2.2.2 ⟨5, .cons "a" (.intv 9) .nil⟩ ⟨4, .cons "a" (.intv 1) .nil⟩
      (by decide)⟩

/-- C7 counterexample: associativity fails as claimed.  First instance:
time orders 1, 2, 3 (pairwise distinct), where a nested mapping is
overwritten by a scalar in between — the two associations differ at key
`"a"` (one inner dict has the key `"x"`, the other does not, so they
also differ under Python's order-insensitive dict equality).  Second
instance: flat single-key updates with pairwise distinct time orders 1,
30000, 60000 whose cyclic comparisons are not transitive — the two
associations do not even agree on the resulting `time_order`. -/
theorem merge_not_associative_counterexample :
    (mergeUpdates (mergeUpdates ⟨1, .cons "a" (.dictv (.cons "x" (.intv 1) .nil)) .nil⟩
        ⟨2, .cons "a" (.intv 5) .nil⟩) ⟨3, .cons "a" (.dictv (.cons "y" (.intv 2) .nil)) .nil⟩ =
      ⟨3, .cons "a" (.dictv (.cons "y" (.intv 2) .nil)) .nil⟩) ∧
    (mergeUpdates ⟨1, .cons "a" (.dictv (.cons "x" (.intv 1) .nil)) .nil⟩
        (mergeUpdates ⟨2, .cons "a" (.intv 5) .nil⟩
          ⟨3, .cons "a" (.dictv (.cons "y" (.intv 2) .nil)) .nil⟩) =
      ⟨3, .cons "a" (.dictv (.cons "x" (.intv 1) (.cons "y" (.intv 2) .nil))) .nil⟩) ∧
    ¬(mergeUpdates (mergeUpdates ⟨1, .cons "a" (.dictv (.cons "x" (.intv 1) .nil)) .nil⟩
        ⟨2, .cons "a" (.intv 5) .nil⟩) ⟨3, .cons "a" (.dictv (.cons "y" (.intv 2) .nil)) .nil⟩ =
      mergeUpdates ⟨1, .cons "a" (.dictv (.cons "x" (.intv 1) .nil)) .nil⟩
        (mergeUpdates ⟨2, .cons "a" (.intv 5) .nil⟩
          ⟨3, .cons "a" (.dictv (.cons "y" (.intv 2) .nil)) .nil⟩)) ∧
    lookupD (PyDict.cons "x" (.intv 1) (.cons "y" (.intv 2) .nil)) "x" = some (.intv 1) ∧
    lookupD (PyDict.cons "y" (.intv 2) .nil) "x" = none ∧
    ((mergeUpdates (mergeUpdates ⟨1, .cons "a" (.intv 1) .nil⟩ ⟨30000, .cons "a" (.intv 2) .nil⟩)
        ⟨60000, .cons "a" (.intv 3) .nil⟩).timeOrder = 60000 ∧
      (mergeUpdates ⟨1, .cons "a" (.intv 1) .nil⟩
        (mergeUpdates ⟨30000, .cons "a" (.intv 2) .nil⟩
          ⟨60000, .cons "a" (.intv 3) .nil⟩)).timeOrder = 1) := by
  refine ⟨by decide, by decide, by decide, by decide, by decide, by decide, by decide⟩

/-! ## Claim C8: the delete sentinel on apply -/

/-- C8: applying an update with strictly greater `time_order` gives the
state the update's `time_order`, removes every state key whose update
value is the `TO_DELETE` sentinel (`d2 81 e5 ba`), and writes every
other (non-mapping) update value over the state; in particular, for
state `{foo: 1, bar: 2}` at time order 3 and update
`{time_order: 4, foo: TO_DELETE, baz: 3}` the result is
`{bar: 2, baz: 3}` at time order 4. -/
theorem apply_update_delete_sentinel :
    (∀ (S : GameState) (U : GameStateUpdate) (k : String), keysNodup U.entries →
      sqnGt U.timeOrder S.timeOrder = true →
      (applyUpdate S U).timeOrder = U.timeOrder ∧
      (lookupD U.entries k = some toDeleteVal → containsKey S.entries k = true →
        lookupD (applyUpdate S U).entries k = none) ∧
      (∀ v, lookupD U.entries k = some v → isToDelete v = false → isDictVal v = false →
        lookupD (applyUpdate S U).entries k = some v)) ∧
    applyUpdate ⟨3, .cons "foo" (.intv 1) (.cons "bar" (.intv 2) .nil)⟩
        ⟨4, .cons "foo" toDeleteVal (.cons "baz" (.intv 3) .nil)⟩ =
      ⟨4, .cons "bar" (.intv 2) (.cons "baz" (.intv 3) .nil)⟩ := by
  refine ⟨?_, by decide⟩
  intro S U k hN hgt
  have happ : applyUpdate S U = ⟨U.timeOrder, recursiveUpdate true S.entries U.entries⟩ := by
    simp only [applyUpdate, if_pos hgt]
  refine ⟨by rw [happ], ?_, ?_⟩
  · intro hdel hcont
    rw [happ]
    show lookupD (recursiveUpdate true S.entries U.entries) k = none
    rw [lookupD_recursiveUpdate true U.entries k hN S.entries, hdel]
    simp [isToDelete, hcont]
  · intro v hv htd hdict
    rw [happ]
    show lookupD (recursiveUpdate true S.entries U.entries) k = some v
    rw [lookupD_recursiveUpdate true U.entries k hN S.entries, hv]
    simp only [htd, Bool.false_and, Bool.false_eq_true, if_false]
    cases v with
    | dictv dv => simp [isDictVal] at hdict
    | intv n =>
        cases hm : lookupD S.entries k with
        | none => rfl
        | some w => cases w <;> rfl
    | strv s =>
        cases hm : lookupD S.entries k with
        | none => rfl
        | some w => cases w <;> rfl
    | bytesv bs =>
        cases hm : lookupD S.entries k with
        | none => rfl
        | some w => cases w <;> rfl

/-- C8 witness: the general part applied to the claim's concrete state
and update at keys `"foo"` (deleted) and `"baz"` (merged in). -/
theorem apply_update_delete_sentinel_witness :
    (keysNodup (PyDict.cons "foo" toDeleteVal (.cons "baz" (.intv 3) .nil)) ∧
      sqnGt 4 3 = true ∧
      lookupD (PyDict.cons "foo" toDeleteVal (.cons "baz" (.intv 3) .nil)) "foo" =
        some toDeleteVal ∧
      containsKey (PyDict.cons "foo" (.intv 1) (.cons "bar" (.intv 2) .nil)) "foo" = true) ∧
    lookupD (applyUpdate ⟨3, .cons "foo" (.intv 1) (.cons "bar" (.intv 2) .nil)⟩
      ⟨4, .cons "foo" toDeleteVal (.cons "baz" (.intv 3) .nil)⟩).entries "foo" = none ∧
    lookupD (applyUpdate ⟨3, .cons "foo" (.intv 1) (.cons "bar" (.intv 2) .nil)⟩
      ⟨4, .cons "foo" toDeleteVal (.cons "baz" (.intv 3) .nil)⟩).entries "baz" =
        some (.intv 3) :=
  ⟨⟨by decide, by decide, by decide, by decide⟩,
    ((apply_update_delete_sentinel.1 ⟨3, .cons "foo" (.intv 1) (.cons "bar" (.intv 2) .nil)⟩
        ⟨4, .cons "foo" toDeleteVal (.cons "baz" (.intv 3) .nil)⟩ "foo" (by decide)
        (by decide)).2.1 (by decide) (by decide)),
    ((apply_update_delete_sentinel.1 ⟨3, .cons "foo" (.intv 1) (.cons "bar" (.intv 2) .nil)⟩
        ⟨4, .cons "foo" toDeleteVal (.cons "baz" (.intv 3) .nil)⟩ "baz" (by decide)
        (by decide)).2.2 (.intv 3) (by decide) (by decide) (by decide))⟩

/-! ## Claim C10: merging updates with equal time orders -/

/-- C10 (amended): when `U.time_order == V.time_order`, `U + V` takes
the else-branch of `__add__` — it returns the right operand `V` with
`U`'s entries written over `V`'s via `_recursive_update`, and the
result keeps the common `time_order`.  For a key present in both
updates the left operand's value wins only when the two values are not
both mappings; when both are mappings they are merged recursively with
`U`'s inner values winning, so `V`'s extra subkeys survive (see
`equal_time_order_nested_counterexample`). -/
theorem equal_time_order_merge_left_bias (U V : GameStateUpdate)
    (heq : U.timeOrder = V.timeOrder) (hN : keysNodup U.entries) :
    (mergeUpdates U V).timeOrder = U.timeOrder ∧
    (mergeUpdates U V).entries = recursiveUpdate false V.entries U.entries ∧
    ∀ k, lookupD (mergeUpdates U V).entries k =
      match lookupD U.entries k with
      | none => lookupD V.entries k
      | some v =>
          match v, lookupD V.entries k with
          | .dictv dv, some (.dictv mv) => some (.dictv (recursiveUpdate false mv dv))
          | _, _ => some v := by
  have hgt : ¬(sqnGt V.timeOrder U.timeOrder = true) := by
    rw [sqnGt_eq_false_of_eq V.timeOrder U.timeOrder heq.symm]
    simp
  refine ⟨by simp only [mergeUpdates, if_neg hgt], by simp only [mergeUpdates, if_neg hgt], ?_⟩
  intro k
  simp only [mergeUpdates, if_neg hgt]
  rw [lookupD_recursiveUpdate false U.entries k hN V.entries]
  simp only [Bool.and_false, Bool.false_eq_true, if_false]

/-- C10 witness: the theorem applied to two concrete flat updates with
the common time order 5. -/
theorem equal_time_order_merge_left_bias_witness :
    ((5 : Nat) = 5 ∧ keysNodup (PyDict.cons "a" (.intv 1) .nil)) ∧
    ((mergeUpdates ⟨5, .cons "a" (.intv 1) .nil⟩ ⟨5, .cons "a" (.intv 2) .nil⟩).timeOrder = 5 ∧
      (mergeUpdates ⟨5, .cons "a" (.intv 1) .nil⟩ ⟨5, .cons "a" (.intv 2) .nil⟩).entries =
        recursiveUpdate false (PyDict.cons "a" (.intv 2) .nil) (PyDict.cons "a" (.intv 1) .nil) ∧
      ∀ k, lookupD (mergeUpdates ⟨5, .cons "a" (.intv 1) .nil⟩
          ⟨5, .cons "a" (.intv 2) .nil⟩).entries k =
        match lookupD (PyDict.cons "a" (.intv 1) .nil) k with
        | none => lookupD (PyDict.cons "a" (.intv 2) .nil) k
        | some v =>
            match v, lookupD (PyDict.cons "a" (.intv 2) .nil) k with
            | .dictv dv, some (.dictv mv) => some (.dictv (recursiveUpdate false mv dv))
            | _, _ => some v) :=
  ⟨⟨rfl, by decide⟩,
    equal_time_order_merge_left_bias ⟨5, .cons "a" (.intv 1) .nil⟩ ⟨5, .cons "a" (.intv 2) .nil⟩
      rfl (by decide)⟩

/-- C10 counterexample: with equal time orders and a key whose values
are mappings in both updates, the left operand's value does not win —
the mappings are merged recursively, so the right operand's extra
subkey `"y"` survives in the result, which therefore differs from the
left value both structurally and under Python's dict equality. -/
theorem equal_time_order_nested_counterexample :
    (mergeUpdates ⟨5, .cons "a" (.dictv (.cons "x" (.intv 1) .nil)) .nil⟩
        ⟨5, .cons "a" (.dictv (.cons "x" (.intv 2) (.cons "y" (.intv 3) .nil))) .nil⟩).entries =
      .cons "a" (.dictv (.cons "x" (.intv 1) (.cons "y" (.intv 3) .nil))) .nil ∧
    lookupD (PyDict.cons "x" (.intv 1) (.cons "y" (.intv 3) .nil)) "y" = some (.intv 3) ∧
    lookupD (PyDict.cons "x" (.intv 1) .nil) "y" = none ∧
    ¬(lookupD (mergeUpdates ⟨5, .cons "a" (.dictv (.cons "x" (.intv 1) .nil)) .nil⟩
        ⟨5, .cons "a" (.dictv (.cons "x" (.intv 2) (.cons "y" (.intv 3) .nil))) .nil⟩).entries "a" =
      lookupD (PyDict.cons "a" (.dictv (.cons "x" (.intv 1) .nil)) .nil) "a") := by
  refine ⟨by decide, by decide, by decide, by decide⟩

/-! ## Claim C3: ack resolution and callback uniqueness -/

theorem lookupA_removeA_self {α : Type} (l : List (Nat × α)) (k : Nat) :
    lookupA (removeA l k) k = none := by
  induction l with
  | nil => rfl
  | cons p rest ih =>
      obtain ⟨k1, v⟩ := p
      by_cases h : k1 = k <;> simp [removeA, lookupA, h, ih]

theorem lookupA_removeA_none {α : Type} (l : List (Nat × α)) (k k' : Nat)
    (h : lookupA l k' = none) : lookupA (removeA l k) k' = none := by
  induction l with
  | nil => rfl
  | cons p rest ih =>
      obtain ⟨k1, v⟩ := p
      by_cases h1 : k1 = k
      · subst h1
        simp only [lookupA] at h
        by_cases h2 : k1 = k'
        · simp [h2] at h
        · simp only [h2, if_false] at h
          simp [removeA, ih h]
      · simp only [lookupA] at h
        by_cases h2 : k1 = k'
        · simp [h2] at h
        · simp only [h2, if_false] at h
          simp [removeA, lookupA, h1, h2, ih h]

/-- Each run of the inner callback loop fires only registered
callbacks, fires each at most once, removes every fired registry entry
and never adds one. -/
theorem fireCallbacks_spec (kind : CbKind) :
    ∀ (ess : List Nat) (ecb : List (Nat × (Bool × Bool))) (fired : List (Nat × CbKind)),
      ∃ new : List (Nat × CbKind),
        (fireCallbacks kind ess ecb fired).2 = fired ++ new ∧
        (new.map Prod.fst).Nodup ∧
        (∀ es ∈ new.map Prod.fst, lookupA ecb es ≠ none) ∧
        (∀ es ∈ new.map Prod.fst, lookupA (fireCallbacks kind ess ecb fired).1 es = none) ∧
        (∀ es, lookupA ecb es = none → lookupA (fireCallbacks kind ess ecb fired).1 es = none) := by
  intro ess
  induction ess with
  | nil =>
      intro ecb fired
      exact ⟨[], by simp [fireCallbacks], by simp, by simp, by simp, fun es h => h⟩
  | cons es rest ih =>
      intro ecb fired
      cases hl : lookupA ecb es with
      | none =>
          obtain ⟨new, h1, h2, h3, h4, h5⟩ := ih ecb fired
          refine ⟨new, ?_, h2, h3, ?_, ?_⟩ <;>
            simp only [fireCallbacks, hl] <;> [exact h1; exact h4; exact h5]
      | some e =>
          by_cases hp : cbPresent kind e = true
          · obtain ⟨new, h1, h2, h3, h4, h5⟩ := ih (removeA ecb es) (fired ++ [(es, kind)])
            refine ⟨(es, kind) :: new, ?_, ?_, ?_, ?_, ?_⟩
            · simp only [fireCallbacks, hl, if_pos hp, h1]
              simp
            · simp only [List.map_cons, List.nodup_cons]
              refine ⟨?_, h2⟩
              intro hmem
              exact absurd (lookupA_removeA_self ecb es) (h3 es hmem)
            · intro es2 hmem
              simp only [List.map_cons, List.mem_cons] at hmem
              rcases hmem with hmem | hmem
              · subst hmem
                simp [hl]
              · intro hnone
                exact h3 es2 hmem (lookupA_removeA_none ecb es es2 hnone)
            · intro es2 hmem
              simp only [List.map_cons, List.mem_cons] at hmem
              simp only [fireCallbacks, hl, if_pos hp]
              rcases hmem with hmem | hmem
              · subst hmem
                exact h5 es2 (lookupA_removeA_self ecb es2)
              · exact h4 es2 hmem
            · intro es2 hnone
              simp only [fireCallbacks, hl, if_pos hp]
              exact h5 es2 (lookupA_removeA_none ecb es es2 hnone)
          · obtain ⟨new, h1, h2, h3, h4, h5⟩ := ih ecb fired
            refine ⟨new, ?_, h2, h3, ?_, ?_⟩ <;>
              simp only [fireCallbacks, hl, if_neg hp] <;> [exact h1; exact h4; exact h5]

/-- Effect of resolving a single pending sequence: it is acknowledged
exactly when `ackResolved` holds, fired callbacks are freshly removed
registry entries, and the registry only shrinks. -/
theorem resolvePendingEntry_spec (ack : Nat) (bits : List Bool) (now : ℚ) (st : RecvState)
    (fired : List (Nat × CbKind)) (acked : List Nat) (entry : Nat × ℚ) :
    ∃ new : List (Nat × CbKind),
      (resolvePendingEntry ack bits now st fired acked entry).2.1 = fired ++ new ∧
      (new.map Prod.fst).Nodup ∧
      (∀ es ∈ new.map Prod.fst, lookupA st.eventCallbacks es ≠ none) ∧
      (∀ es ∈ new.map Prod.fst,
        lookupA (resolvePendingEntry ack bits now st fired acked entry).1.eventCallbacks es
          = none) ∧
      (∀ es, lookupA st.eventCallbacks es = none →
        lookupA (resolvePendingEntry ack bits now st fired acked entry).1.eventCallbacks es
          = none) ∧
      (resolvePendingEntry ack bits now st fired acked entry).2.2 =
        acked ++ (if ackResolved ack bits entry.1 then [entry.1] else []) := by
  by_cases hack : ackResolved ack bits entry.1 = true
  · cases hewc : lookupA st.eventsWithCallbacks entry.1 with
    | some ess =>
        have hres : resolvePendingEntry ack bits now st fired acked entry =
            (⟨removeA st.pendingAcks entry.1, removeA st.eventsWithCallbacks entry.1,
              (fireCallbacks .ackCb ess st.eventCallbacks fired).1,
              st.latency + (1 / 10) * ((now - entry.2) - st.latency)⟩,
              (fireCallbacks .ackCb ess st.eventCallbacks fired).2, acked ++ [entry.1]) := by
          simp [resolvePendingEntry, hack, hewc]
        obtain ⟨new, h1, h2, h3, h4, h5⟩ := fireCallbacks_spec .ackCb ess st.eventCallbacks fired
        exact ⟨new, by rw [hres]; exact h1, h2, h3, by rw [hres]; exact h4,
          by rw [hres]; exact h5, by rw [hres]; simp [hack]⟩
    | none =>
        have hres : resolvePendingEntry ack bits now st fired acked entry =
            (⟨removeA st.pendingAcks entry.1, st.eventsWithCallbacks, st.eventCallbacks,
              st.latency + (1 / 10) * ((now - entry.2) - st.latency)⟩,
              fired, acked ++ [entry.1]) := by
          simp [resolvePendingEntry, hack, hewc]
        exact ⟨[], by rw [hres]; simp, by simp, by simp, by simp,
          by rw [hres]; intro es h; exact h, by rw [hres]; simp [hack]⟩
  · by_cases htime : now - entry.2 > packageTimeout
    · cases hewc : lookupA st.eventsWithCallbacks entry.1 with
      | some ess =>
          have hres : resolvePendingEntry ack bits now st fired acked entry =
              (⟨removeA st.pendingAcks entry.1, removeA st.eventsWithCallbacks entry.1,
                (fireCallbacks .timeoutCb ess st.eventCallbacks fired).1, st.latency⟩,
                (fireCallbacks .timeoutCb ess st.eventCallbacks fired).2, acked) := by
            simp [resolvePendingEntry, hack, htime, hewc]
          obtain ⟨new, h1, h2, h3, h4, h5⟩ :=
            fireCallbacks_spec .timeoutCb ess st.eventCallbacks fired
          exact ⟨new, by rw [hres]; exact h1, h2, h3, by rw [hres]; exact h4,
            by rw [hres]; exact h5, by rw [hres]; simp [hack]⟩
      | none =>
          have hres : resolvePendingEntry ack bits now st fired acked entry =
              (⟨removeA st.pendingAcks entry.1, st.eventsWithCallbacks, st.eventCallbacks,
                st.latency⟩, fired, acked) := by
            simp [resolvePendingEntry, hack, htime, hewc]
          exact ⟨[], by rw [hres]; simp, by simp, by simp, by simp,
            by rw [hres]; intro es h; exact h, by rw [hres]; simp [hack]⟩
    · have hres : resolvePendingEntry ack bits now st fired acked entry =
          (st, fired, acked) := by
        simp [resolvePendingEntry, hack, htime]
      exact ⟨[], by rw [hres]; simp, by simp, by simp, by simp,
        by rw [hres]; intro es h; exact h, by rw [hres]; simp [hack]⟩

/-- Loop-level version of `resolvePendingEntry_spec`: the acknowledged
sequences are exactly the pending ones satisfying `ackResolved`, and
callbacks fire at most once with their registry entries removed. -/
theorem resolveLoop_spec (ack : Nat) (bits : List Bool) (now : ℚ) :
    ∀ (entries : List (Nat × ℚ)) (st : RecvState) (fired : List (Nat × CbKind))
      (acked : List Nat),
      ∃ new : List (Nat × CbKind),
        (resolveLoop ack bits now entries st fired acked).2.1 = fired ++ new ∧
        (new.map Prod.fst).Nodup ∧
        (∀ es ∈ new.map Prod.fst, lookupA st.eventCallbacks es ≠ none) ∧
        (∀ es ∈ new.map Prod.fst,
          lookupA (resolveLoop ack bits now entries st fired acked).1.eventCallbacks es
            = none) ∧
        (∀ es, lookupA st.eventCallbacks es = none →
          lookupA (resolveLoop ack bits now entries st fired acked).1.eventCallbacks es
            = none) ∧
        (resolveLoop ack bits now entries st fired acked).2.2 =
          acked ++ (entries.filter (fun e => ackResolved ack bits e.1)).map Prod.fst := by
  intro entries
  induction entries with
  | nil =>
      intro st fired acked
      exact ⟨[], by simp [resolveLoop], by simp, by simp, by simp,
        fun es h => h, by simp [resolveLoop]⟩
  | cons entry rest ih =>
      intro st fired acked
      have hstep : resolveLoop ack bits now (entry :: rest) st fired acked =
          resolveLoop ack bits now rest
            (resolvePendingEntry ack bits now st fired acked entry).1
            (resolvePendingEntry ack bits now st fired acked entry).2.1
            (resolvePendingEntry ack bits now st fired acked entry).2.2 := by
        simp [resolveLoop]
      obtain ⟨newE, e1, e2, e3, e4, e5, e6⟩ :=
        resolvePendingEntry_spec ack bits now st fired acked entry
      obtain ⟨newR, r1, r2, r3, r4, r5, r6⟩ :=
        ih (resolvePendingEntry ack bits now st fired acked entry).1
          (resolvePendingEntry ack bits now st fired acked entry).2.1
          (resolvePendingEntry ack bits now st fired acked entry).2.2
      refine ⟨newE ++ newR, ?_, ?_, ?_, ?_, ?_, ?_⟩
      · rw [hstep, r1, e1, List.append_assoc]
      · rw [List.map_append, List.nodup_append]
        refine ⟨e2, r2, ?_⟩
        intro es hesE hesR
        exact absurd (e4 es hesE) (r3 es hesR)
      · intro es hmem
        rw [List.map_append, List.mem_append] at hmem
        rcases hmem with hmem | hmem
        · exact e3 es hmem
        · intro hnone
          exact r3 es hmem (e5 es hnone)
      · intro es hmem
        rw [hstep]
        rw [List.map_append, List.mem_append] at hmem
        rcases hmem with hmem | hmem
        · exact r5 es (e4 es hmem)
        · exact r4 es hmem
      · intro es hnone
        rw [hstep]
        exact r5 es (e5 es hnone)
      · rw [hstep, r6, e6]
        by_cases hc : ackResolved ack bits entry.1 = true <;>
          simp [List.filter_cons, hc]

/-- Over any sequence of receives, the total fire log mentions each
callback sequence at most once: every fire removes its registry entry
and receives never add entries. -/
theorem runReceives_spec :
    ∀ (rs : List (Nat × List Bool × ℚ)) (st : RecvState),
      ((runReceives rs st).2.map Prod.fst).Nodup ∧
      (∀ es ∈ (runReceives rs st).2.map Prod.fst, lookupA st.eventCallbacks es ≠ none) ∧
      (∀ es ∈ (runReceives rs st).2.map Prod.fst,
        lookupA (runReceives rs st).1.eventCallbacks es = none) ∧
      (∀ es, lookupA st.eventCallbacks es = none →
        lookupA (runReceives rs st).1.eventCallbacks es = none) := by
  intro rs
  induction rs with
  | nil =>
      intro st
      exact ⟨by simp [runReceives], by simp [runReceives], by simp [runReceives],
        fun es h => by simpa [runReceives] using h⟩
  | cons r rest ih =>
      intro st
      obtain ⟨ack, bits, now⟩ := r
      have hstep : runReceives ((ack, bits, now) :: rest) st =
          ((runReceives rest (processReceive ack bits now st).1).1,
            (processReceive ack bits now st).2.1 ++
              (runReceives rest (processReceive ack bits now st).1).2) := by
        simp [runReceives]
      obtain ⟨newE, e1, e2, e3, e4, e5, _⟩ :=
        resolveLoop_spec ack bits now st.pendingAcks st [] []
      have e1' : (processReceive ack bits now st).2.1 = newE := by
        simpa [processReceive] using e1
      obtain ⟨i1, i2, i3, i4⟩ := ih (processReceive ack bits now st).1
      rw [hstep]
      refine ⟨?_, ?_, ?_, ?_⟩
      · simp only [List.map_append, List.nodup_append, e1']
        refine ⟨e2, i1, ?_⟩
        intro es hesE hesR
        have h1 : lookupA (processReceive ack bits now st).1.eventCallbacks es = none :=
          e4 es (by rw [e1'] at *; exact hesE)
        exact absurd h1 (i2 es hesR)
      · intro es hmem
        simp only [List.map_append, List.mem_append, e1'] at hmem
        rcases hmem with hmem | hmem
        · exact e3 es hmem
        · intro hnone
          exact i2 es hmem (e5 es hnone)
      · intro es hmem
        simp only [List.map_append, List.mem_append, e1'] at hmem
        rcases hmem with hmem | hmem
        · exact i4 es (e4 es hmem)
        · exact i3 es hmem
      · intro es hnone
        exact i4 es (e5 es hnone)

/-- C3: during receive handling a pending local sequence `s` is
treated as acknowledged exactly when the signed distance
`d = ack - s` satisfies `d == 0`, or `0 < d < 32` and the ack-bitfield
bit at position `d - 1` is set (`ackResolved`); and over any sequence
of receives each registered ack callback fires at most once, each
timeout callback fires at most once, and no callback sequence fires
both its ack and its timeout callback. -/
theorem ack_resolution_and_callback_uniqueness :
    (∀ (ack : Nat) (bits : List Bool) (now : ℚ) (st : RecvState) (s : Nat),
      s ∈ (processReceive ack bits now st).2.2 ↔
        ((∃ ts, (s, ts) ∈ st.pendingAcks) ∧ ackResolved ack bits s = true)) ∧
    (∀ (rs : List (Nat × List Bool × ℚ)) (st : RecvState) (es : Nat),
      List.count (es, CbKind.ackCb) (runReceives rs st).2 ≤ 1 ∧
      List.count (es, CbKind.timeoutCb) (runReceives rs st).2 ≤ 1 ∧
      ¬((es, CbKind.ackCb) ∈ (runReceives rs st).2 ∧
        (es, CbKind.timeoutCb) ∈ (runReceives rs st).2)) := by
  constructor
  · intro ack bits now st s
    obtain ⟨newE, e1, e2, e3, e4, e5, e6⟩ := resolveLoop_spec ack bits now st.pendingAcks st [] []
    have hacked : (processReceive ack bits now st).2.2 =
        (st.pendingAcks.filter (fun e => ackResolved ack bits e.1)).map Prod.fst := by
      simpa [processReceive] using e6
    rw [hacked]
    simp only [List.mem_map, List.mem_filter]
    constructor
    · rintro ⟨⟨a, ts⟩, ⟨hmem, hcond⟩, hfst⟩
      simp only at hfst
      subst hfst
      exact ⟨⟨ts, hmem⟩, hcond⟩
    · rintro ⟨⟨ts, hmem⟩, hcond⟩
      exact ⟨(s, ts), ⟨hmem, hcond⟩, rfl⟩
  · intro rs st es
    obtain ⟨hnd, -, -, -⟩ := runReceives_spec rs st
    have hcount : ∀ k : CbKind, List.count (es, k) (runReceives rs st).2 ≤ 1 := by
      intro k
      have h1 : List.count (es, k) (runReceives rs st).2 ≤
          List.count es ((runReceives rs st).2.map Prod.fst) := by
        rw [List.count, List.count, List.countP_map]
        apply List.countP_mono_left
        intro a _ ha
        simp only [beq_iff_eq] at ha
        subst ha
        simp
      have h2 := (List.nodup_iff_count_le_one.mp hnd) es
      omega
    refine ⟨hcount _, hcount _, ?_⟩
    rintro ⟨hmem1, hmem2⟩
    have hp := List.inj_on_of_nodup_map hnd hmem1 hmem2 rfl
    simp at hp

/-- C3 witness: a state with two pending sequences 1 and 2 and two
registered callbacks; a receive acking sequence 1 (distance 0) fires
callback 11 once. -/
theorem ack_resolution_and_callback_uniqueness_witness :
    ((1 : Nat) ∈ (processReceive 1 (List.replicate 32 false) 0
        ⟨[(1, 0), (2, 0)], [(1, [11]), (2, [12])], [(11, (true, false)), (12, (false, true))],
          0⟩).2.2 ↔
      ((∃ ts, ((1 : Nat), ts) ∈ [((1 : Nat), (0 : ℚ)), (2, 0)]) ∧
        ackResolved 1 (List.replicate 32 false) 1 = true)) ∧
    List.count (11, CbKind.ackCb) (runReceives [(1, List.replicate 32 false, 0)]
      ⟨[(1, 0), (2, 0)], [(1, [11]), (2, [12])], [(11, (true, false)), (12, (false, true))],
        0⟩).2 ≤ 1 :=
  ⟨ack_resolution_and_callback_uniqueness.1 1 (List.replicate 32 false) 0
      ⟨[(1, 0), (2, 0)], [(1, [11]), (2, [12])], [(11, (true, false)), (12, (false, true))], 0⟩ 1,
    (ack_resolution_and_callback_uniqueness.2 [(1, List.replicate 32 false, 0)]
      ⟨[(1, 0), (2, 0)], [(1, [11]), (2, [12])], [(11, (true, false)), (12, (false, true))], 0⟩
      11).1⟩

end Pygase
